import Mathlib

/-!
Shallow embedding of the `docx_dart` sources (a port of python-docx) and
proofs about them.  Each section embeds one area of the code:

* `Docx.Shared`   — `Length` and its unit-constructor subclasses (shared.py)
* `Docx.Rels`     — `Relationships` collection (opc/rel.py)
* `Docx.Pkg`      — package graph walks (opc/package.py, opc/pkgreader.py)
* `Docx.CType`    — `_ContentTypeMap` and `CaseInsensitiveDict` (opc/pkgreader.py, opc/shared.py)
* `Docx.Xmlchemy` — `insert_element_before` / `first_child_found_in` (oxml/xmlchemy.py)
* `Docx.Table`    — table grid, `tc_at_grid_offset`, cell merge (oxml/table.py)
-/

namespace Docx.Shared

/-- `docx.shared.Length` behaves as an int count of English Metric Units.
We model a length as its EMU count, a plain integer. -/
abbrev Length : Type := Int

/-- `Length._EMUS_PER_INCH` -/
def EMUS_PER_INCH : Int := 914400

/-- `Length._EMUS_PER_PT` -/
def EMUS_PER_PT : Int := 12700

/-- `Length._EMUS_PER_TWIP` -/
def EMUS_PER_TWIP : Int := 635

/-- `Pt.__new__`: `emu = int(points * Length._EMUS_PER_PT)` (integer points). -/
def Pt (points : Int) : Int := points * EMUS_PER_PT

/-- `Twips.__new__`: `emu = int(twips * Length._EMUS_PER_TWIP)` (integer twips). -/
def Twips (twips : Int) : Int := twips * EMUS_PER_TWIP

/-- `Length.twips` property: `int(round(self / float(self._EMUS_PER_TWIP)))`.
The quotient is modelled exactly as a rational; `round` is round-to-nearest.
(Python rounds ties to even, but `emu / 635` is never a tie: 635 is odd.) -/
def Length.twips (emu : Int) : Int := round ((emu : ℚ) / (EMUS_PER_TWIP : ℚ))

end Docx.Shared


namespace Docx.Rels

/-- A `Part` is a Python object compared by identity in the relationship
collection; we model an object identity by a numeric token. -/
abbrev Part : Type := Nat

/-- `_Relationship` value object (opc/rel.py).  `_target` holds a part for an
internal relationship and a string reference for an external one; we tag the
two possibilities with a sum.  `_baseURI` plays no role in the operations
modelled here (it is only used to render `target_ref` of internal
relationships, which none of the modelled code paths reads). -/
structure Relationship where
  rId : String
  reltype : String
  target : Part ⊕ String
  isExternal : Bool
deriving DecidableEq

/-- Errors raised by the relationship collection: `KeyError` and `ValueError`. -/
inductive RelsError where
  | keyError (msg : String)
  | valueError (msg : String)
deriving DecidableEq

/-- `_Relationship.target_part`: raises `ValueError` when target mode is
External, otherwise returns the stored target unchanged (the `cast` in the
source is a runtime no-op). -/
def Relationship.target_part (rel : Relationship) : Except RelsError (Part ⊕ String) :=
  if rel.isExternal then
    .error (.valueError "target_part property on _Relationship is undefined when target mode is External")
  else
    .ok rel.target

/-- A `Relationships` collection is a `dict` keyed by rId; we model it as the
list of its values in insertion order (each value carries its key). -/
abbrev Relationships : Type := List Relationship

/-- The key set of the collection. -/
def keys (s : Relationships) : List String := s.map Relationship.rId

/-- `self[rId] = rel`: dict assignment replaces the value at an existing key
(keeping its position) and otherwise appends a new entry. -/
def dictSet (s : Relationships) (rel : Relationship) : Relationships :=
  match s with
  | [] => [rel]
  | r :: rest => if r.rId = rel.rId then rel :: rest else r :: dictSet rest rel

/-- The candidate id `"rId%d" % n`. -/
def rIdCandidate (n : Nat) : String := "rId" ++ Nat.repr n

/-- The `for n in range(...)` loop body of `Relationships._next_rId`:
starting at `n`, try `fuel` successive candidates, returning the first whose
id is not already a key; falling off the loop returns `None`. -/
def nextRIdFrom (ks : List String) : Nat → Nat → Option String
  | _, 0 => none
  | n, fuel + 1 =>
    if rIdCandidate n ∈ ks then nextRIdFrom ks (n + 1) fuel
    else some (rIdCandidate n)

/-- `Relationships._next_rId`: scan `range(1, len(self) + 2)`. -/
def next_rId (s : Relationships) : Option String :=
  nextRIdFrom (keys s) 1 (s.length + 1)

/-- The `matches` helper inside `Relationships._get_matching`.  With the
externality flags equal, `rel_target` is the stored target object, so the
final comparison is equality of the stored target with the requested one
(objects of distinct kinds are never equal). -/
def relMatches (rel : Relationship) (reltype : String) (target : Part ⊕ String)
    (is_external : Bool) : Bool :=
  if rel.reltype ≠ reltype then false
  else if rel.isExternal ≠ is_external then false
  else if rel.target ≠ target then false
  else true

/-- `Relationships._get_matching`: first value (in insertion order) accepted
by `matches`, or `None`. -/
def _get_matching (s : Relationships) (reltype : String) (target : Part ⊕ String)
    (is_external : Bool) : Option Relationship :=
  s.find? (fun rel => relMatches rel reltype target is_external)

/-- `Relationships.add_relationship` (the `_target_parts_by_rId` cache feeds
only `related_parts`, which is not modelled). -/
def add_relationship (s : Relationships) (reltype : String) (target : Part ⊕ String)
    (rId : String) (is_external : Bool) : Relationship × Relationships :=
  let rel : Relationship := ⟨rId, reltype, target, is_external⟩
  (rel, dictSet s rel)

/-- `Relationships.get_or_add`.  `None` models the crash that would follow if
`_next_rId` fell off its loop (it never does). -/
def get_or_add (s : Relationships) (reltype : String) (target_part : Part) :
    Option (Relationship × Relationships) :=
  match _get_matching s reltype (.inl target_part) false with
  | some rel => some (rel, s)
  | none =>
    match next_rId s with
    | none => none
    | some rId => some (add_relationship s reltype (.inl target_part) rId false)

/-- `Relationships.get_or_add_ext_rel`: returns the rId of the (possibly
newly added) external relationship. -/
def get_or_add_ext_rel (s : Relationships) (reltype : String) (target_ref : String) :
    Option (String × Relationships) :=
  match _get_matching s reltype (.inr target_ref) true with
  | some rel => some (rel.rId, s)
  | none =>
    match next_rId s with
    | none => none
    | some rId =>
      let (rel, s') := add_relationship s reltype (.inr target_ref) rId true
      some (rel.rId, s')

/-- `Relationships._get_rel_of_type`: the single relationship of `reltype`;
`KeyError` on zero matches, `ValueError` on more than one. -/
def _get_rel_of_type (s : Relationships) (reltype : String) : Except RelsError Relationship :=
  match s.filter (fun rel => rel.reltype == reltype) with
  | [] => .error (.keyError ("no relationship of type " ++ reltype ++ " in collection"))
  | [rel] => .ok rel
  | _ => .error (.valueError ("multiple relationships of type " ++ reltype ++ " in collection"))

/-- `Relationships.part_with_reltype`. -/
def part_with_reltype (s : Relationships) (reltype : String) : Except RelsError (Part ⊕ String) :=
  match _get_rel_of_type s reltype with
  | .error e => .error e
  | .ok rel => rel.target_part

end Docx.Rels


namespace Docx.StrNat

/-- Numeric value of a decimal digit character (inverse of `Nat.digitChar`
on digits below 10). -/
def digitVal (c : Char) : Nat := c.toNat - 48

/-- Value of a decimal digit string, most significant digit first. -/
def valList (cs : List Char) : Nat := cs.foldl (fun a c => 10 * a + digitVal c) 0

end Docx.StrNat


namespace Docx.CType

/-- `str.lower` restricted to ASCII (all keys in scope are ASCII). -/
def lower (s : String) : String := ⟨s.data.map Char.toLower⟩

/-- The backing `dict` of a `CaseInsensitiveDict`: an association list in
insertion order. -/
abbrev CIDict : Type := List (String × String)

/-- Plain `dict` lookup. -/
def dictLookup (d : CIDict) (k : String) : Option String :=
  match d with
  | [] => none
  | (k', v) :: rest => if k' = k then some v else dictLookup rest k

/-- Plain `dict` assignment: overwrite in place or append. -/
def dictSet (d : CIDict) (k v : String) : CIDict :=
  match d with
  | [] => [(k, v)]
  | (k', v') :: rest => if k' = k then (k, v) :: rest else (k', v') :: dictSet rest k v

/-- `CaseInsensitiveDict.__getitem__` / `__contains__`: looks up `key.lower()`. -/
def ciGet (d : CIDict) (k : String) : Option String := dictLookup d (lower k)

/-- `CaseInsensitiveDict.__setitem__`: stores under `key.lower()`. -/
def ciSet (d : CIDict) (k v : String) : CIDict := dictSet d (lower k) v

/-- `PackURI.ext`: `posixpath.splitext(self)[1]` with the leading period
dropped.  `splitext` takes the suffix after the last dot of the component
after the last slash, except when every character of that component before
the dot is itself a dot (then there is no extension). -/
def ext (uri : String) : String :=
  let revBase := (uri.data.reverse.takeWhile (· ≠ '/'))
  let afterDot := revBase.takeWhile (· ≠ '.')
  if afterDot.length = revBase.length then ""
  else
    let revName := revBase.drop (afterDot.length + 1)
    if revName.any (· ≠ '.') then ⟨afterDot.reverse⟩ else ""

/-- `_ContentTypeMap` (opc/pkgreader.py): an overrides dict keyed by
partname and a defaults dict keyed by extension, both case-insensitive.
(The `isinstance(partname, PackURI)` guard of `__getitem__` is enforced here
by typing.) -/
structure ContentTypeMap where
  overrides : CIDict
  defaults : CIDict

/-- `_ContentTypeMap._add_override` -/
def _add_override (m : ContentTypeMap) (partname content_type : String) : ContentTypeMap :=
  { m with overrides := ciSet m.overrides partname content_type }

/-- `_ContentTypeMap._add_default` -/
def _add_default (m : ContentTypeMap) (extension content_type : String) : ContentTypeMap :=
  { m with defaults := ciSet m.defaults extension content_type }

/-- `_ContentTypeMap.__getitem__`: overrides first, then the default for the
partname extension, else `KeyError` naming the partname. -/
def getitem (m : ContentTypeMap) (partname : String) : Except String String :=
  match ciGet m.overrides partname with
  | some content_type => .ok content_type
  | none =>
    match ciGet m.defaults (ext partname) with
    | some content_type => .ok content_type
    | none =>
      .error ("no content type for partname " ++ partname ++ " in [Content_Types].xml")

end Docx.CType


namespace Docx.Table

/-- `ST_Merge` values for `w:vMerge/@val`. -/
inductive Merge where
  | restart
  | continue_
deriving DecidableEq

/-- Block-level content item of a cell (`w:p` with its number of runs,
`w:tbl`, or `w:sdt`). -/
inductive Block where
  | p (runs : Nat)
  | tbl
  | sdt
deriving DecidableEq

/-- `w:tc` element with its resolved `w:tcPr` properties: `grid_span`
(default 1 when absent), `vMerge` (`none` when the `w:vMerge` child is
absent), `width` (`none` when `w:tcW` is absent) and block content. -/
structure Tc where
  gridSpan : Nat
  vMerge : Option Merge
  width : Option Int
  blocks : List Block
deriving DecidableEq

/-- `w:tr` element: `grid_before` (default 0) and the `w:tc` children. -/
structure Tr where
  gridBefore : Nat
  tcs : List Tc
deriving DecidableEq

/-- `w:tbl` element: its `w:tr` children. -/
structure Tbl where
  trs : List Tr
deriving DecidableEq

/-- Errors out of the table code: `InvalidSpanError` and `ValueError`. -/
inductive TableError where
  | invalidSpan (msg : String)
  | valueError (msg : String)
deriving DecidableEq

/-- `CT_Tc.grid_offset` of the cell at index `c`: `grid_before` plus the
grid spans of the preceding `w:tc` siblings. -/
def gridOffsetAt (tr : Tr) (c : Nat) : Nat :=
  tr.gridBefore + ((tr.tcs.take c).map Tc.gridSpan).sum

/-- The scan loop of `CT_Row.tc_at_grid_offset` over the remaining cells;
returns the index of the cell found (relative to the cells scanned). -/
def tcScan : Int → List Tc → Except TableError Nat
  | _, [] => .error (.valueError "no tc element at grid_offset")
  | remaining_offset, tc :: rest =>
    if remaining_offset < 0 then .error (.valueError "no tc element at grid_offset")
    else if remaining_offset = 0 then .ok 0
    else (tcScan (remaining_offset - (tc.gridSpan : Int)) rest).map (· + 1)

/-- `CT_Row.tc_at_grid_offset`: index of the `w:tc` in this row starting at
exactly `grid_offset`; `ValueError` when there is none. -/
def tc_at_grid_offset (tr : Tr) (grid_offset : Int) : Except TableError Nat :=
  tcScan (grid_offset - (tr.gridBefore : Int)) tr.tcs

/-- Cell lookup by (row index, cell index). -/
def tcAt (t : Tbl) (r c : Nat) : Option Tc :=
  (t.trs[r]?).bind (fun tr => tr.tcs[c]?)

/-- Replace the cell at (r, c) by `f` of it. -/
def modifyTc (t : Tbl) (r c : Nat) (f : Tc → Tc) : Tbl :=
  ⟨t.trs.modify (fun tr => ⟨tr.gridBefore, tr.tcs.modify f c⟩) r⟩

/-- Remove the cell at (r, c) from its row (`CT_Tc._remove`). -/
def removeTc (t : Tbl) (r c : Nat) : Tbl :=
  ⟨t.trs.modify (fun tr => ⟨tr.gridBefore, tr.tcs.eraseIdx c⟩) r⟩

/-- `CT_Tc.top`: row index of the top of this cell's vertical span, chasing
`continue` markers upward through the cell above at the same grid offset. -/
def top (t : Tbl) : Nat → Nat → Except TableError Nat
  | r, c =>
    match tcAt t r c with
    | none => .error (.valueError "no tc at address")
    | some tc =>
      if tc.vMerge = none ∨ tc.vMerge = some .restart then .ok r
      else
        match r with
        | 0 => .error (.valueError "no tr above topmost tr in w:tbl")
        | r' + 1 =>
          match t.trs[r']? with
          | none => .error (.valueError "no tc at address")
          | some trAbove =>
            match tc_at_grid_offset trAbove (gridOffsetAt (t.trs[r' + 1]?.getD ⟨0, []⟩) c : Int) with
            | .error e => .error e
            | .ok c' => top t r' c'

/-- The downward recursion of `CT_Tc.bottom`, with an explicit structural
fuel.  The recursion steps to the next row each time, so any fuel of at
least `t.trs.length - r + 1` is never exhausted. -/
def bottomAux (t : Tbl) : Nat → Nat → Nat → Except TableError Nat
  | 0, _, _ => .error (.valueError "recursion depth exceeded")
  | fuel + 1, r, c =>
    match tcAt t r c with
    | none => .error (.valueError "no tc at address")
    | some tc =>
      if tc.vMerge ≠ none then
        match t.trs[r + 1]? with
        | none => .ok (r + 1)
        | some trBelow =>
          match tc_at_grid_offset trBelow (gridOffsetAt (t.trs[r]?.getD ⟨0, []⟩) c : Int) with
          | .error e => .error e
          | .ok c' =>
            match tcAt t (r + 1) c' with
            | none => .error (.valueError "no tc at address")
            | some tcBelow =>
              if tcBelow.vMerge = some .continue_ then bottomAux t fuel (r + 1) c'
              else .ok (r + 1)
      else .ok (r + 1)

/-- `CT_Tc.bottom`: one past the bottom row of this cell's vertical span,
chasing `continue` markers downward through the cell below at the same grid
offset. -/
def bottom (t : Tbl) (r c : Nat) : Except TableError Nat :=
  bottomAux t (t.trs.length + 1 - r) r c

/-- `CT_Tc.left`: the grid offset of this cell. -/
def left (t : Tbl) (r c : Nat) : Nat := gridOffsetAt (t.trs[r]?.getD ⟨0, []⟩) c

/-- `CT_Tc.right`: `grid_offset + grid_span`. -/
def right (t : Tbl) (r c : Nat) : Nat :=
  left t r c + ((tcAt t r c).getD ⟨1, none, none, []⟩).gridSpan

/-- `CT_Tc._span_dimensions`: extents of the rectangle with this cell and
`other` as diagonal corners; `InvalidSpanError` on inverted-L and tee
shapes. -/
def _span_dimensions (t : Tbl) (ra ca rb cb : Nat) :
    Except TableError (Nat × Nat × Nat × Nat) :=
  match top t ra ca, bottom t ra ca, top t rb cb, bottom t rb cb with
  | .ok ta, .ok ba, .ok tb, .ok bb =>
    let la := left t ra ca
    let raa := right t ra ca
    let lb := left t rb cb
    let rbb := right t rb cb
    -- raise_on_inverted_L
    if ta = tb ∧ ba ≠ bb then
      .error (.invalidSpan "requested span not rectangular")
    else if la = lb ∧ raa ≠ rbb then
      .error (.invalidSpan "requested span not rectangular")
    -- raise_on_tee_shaped: (top_most, other) is (a, b) when a.top < b.top else (b, a)
    else if (if ta < tb then ta < tb ∧ ba > bb else tb < ta ∧ bb > ba) then
      .error (.invalidSpan "requested span not rectangular")
    else if (if la < lb then la < lb ∧ raa > rbb else lb < la ∧ rbb > raa) then
      .error (.invalidSpan "requested span not rectangular")
    else
      .ok (min ta tb, min la lb, max ba bb - min ta tb, max raa rbb - min la lb)
  | .error e, _, _, _ => .error e
  | .ok _, .error e, _, _ => .error e
  | .ok _, .ok _, .error e, _ => .error e
  | .ok _, .ok _, .ok _, .error e => .error e

end Docx.Table


namespace Docx.Table

/-- `CT_Tc._is_empty`: the cell holds exactly one block item and it is a
`w:p` with no runs.  (A cell with no block item at all is invalid input and
cannot arise; we return false there.) -/
def _is_empty (tc : Tc) : Bool :=
  match tc.blocks with
  | [Block.p 0] => true
  | _ => false

/-- `CT_Tc._remove_trailing_empty_p`: drop the last content element when it
is a runless `w:p`. -/
def _remove_trailing_empty_p (tc : Tc) : Tc :=
  match tc.blocks.getLast? with
  | some (Block.p 0) => ⟨tc.gridSpan, tc.vMerge, tc.width, tc.blocks.dropLast⟩
  | _ => tc

/-- `CT_Tc._move_content_to`: append this cell's content to `other` (after
removing `other`'s trailing empty paragraph) and leave a single empty `w:p`
here; no-op when `other` is this very cell or this cell is empty. -/
def _move_content_to (t : Tbl) (src dst : Nat × Nat) : Tbl :=
  if src = dst then t
  else
    match tcAt t src.1 src.2 with
    | none => t
    | some srcTc =>
      if _is_empty srcTc then t
      else
        let t1 := modifyTc t dst.1 dst.2 (fun d =>
          let d' := _remove_trailing_empty_p d
          ⟨d'.gridSpan, d'.vMerge, d'.width, d'.blocks ++ srcTc.blocks⟩)
        modifyTc t1 src.1 src.2 (fun s0 => ⟨s0.gridSpan, s0.vMerge, s0.width, [Block.p 0]⟩)

/-- `CT_Tc._add_width_of`: add `other`'s width to this cell's; no-op unless
both widths are present and non-zero (Python truthiness of `Length`). -/
def _add_width_of (self other : Tc) : Tc :=
  match self.width, other.width with
  | some w1, some w2 =>
    if w1 ≠ 0 ∧ w2 ≠ 0 then ⟨self.gridSpan, self.vMerge, some (w1 + w2), self.blocks⟩
    else self
  | _, _ => self

/-- `CT_Tc._swallow_next_tc`: extend this cell's span over the following
`w:tc` of its row, moving that cell's content to `top_tc` and deleting it;
`InvalidSpanError` when there is no next cell or the result would overshoot
`grid_width`. -/
def _swallow_next_tc (t : Tbl) (r c grid_width : Nat) (topAddr : Nat × Nat) :
    Except TableError Tbl :=
  match tcAt t r c, tcAt t r (c + 1) with
  | some _, none => .error (.invalidSpan "not enough grid columns")
  | none, _ => .error (.valueError "no tc at address")
  | some selfTc, some nextTc =>
    if selfTc.gridSpan + nextTc.gridSpan > grid_width then
      .error (.invalidSpan "span is not rectangular")
    else
      let t1 := _move_content_to t (r, c + 1) topAddr
      let t2 := match tcAt t1 r c, tcAt t1 r (c + 1) with
        | some s2, some n2 =>
          modifyTc t1 r c (fun _ =>
            let s3 := _add_width_of s2 n2
            ⟨s3.gridSpan + n2.gridSpan, s3.vMerge, s3.width, s3.blocks⟩)
        | _, _ => t1
      .ok (removeTc t2 r (c + 1))

/-- The `while self.grid_span < grid_width` loop of `CT_Tc._span_to_width`.
Each iteration removes one `w:tc` from the row, so the row's cell count at
entry bounds the number of iterations; `fuel` carries that bound. -/
def spanLoop (fuel : Nat) (t : Tbl) (r c grid_width : Nat) (topAddr : Nat × Nat) :
    Except TableError Tbl :=
  match fuel with
  | 0 => .error (.valueError "loop did not terminate")
  | fuel + 1 =>
    match tcAt t r c with
    | none => .error (.valueError "no tc at address")
    | some selfTc =>
      if selfTc.gridSpan < grid_width then
        match _swallow_next_tc t r c grid_width topAddr with
        | .error e => .error e
        | .ok t' => spanLoop fuel t' r c grid_width topAddr
      else .ok t

/-- `CT_Tc._span_to_width`: move this cell's content to `top_tc`, swallow
following cells until the span reaches `grid_width`, then set the `vMerge`
marker. -/
def _span_to_width (t : Tbl) (r c grid_width : Nat) (topAddr : Nat × Nat)
    (vMerge : Option Merge) : Except TableError Tbl :=
  let t1 := _move_content_to t (r, c) topAddr
  let fuel := ((t1.trs[r]?).getD ⟨0, []⟩).tcs.length + 1
  match spanLoop fuel t1 r c grid_width topAddr with
  | .error e => .error e
  | .ok t2 => .ok (modifyTc t2 r c (fun s0 => ⟨s0.gridSpan, vMerge, s0.width, s0.blocks⟩))

/-- The `vMerge_val` helper inside `CT_Tc._grow_to`: `continue` when the
growing cell is not the top cell, otherwise absent for a one-row span and
`restart` for a taller one. -/
def growVMerge (topAddr self : Nat × Nat) (height : Nat) : Option Merge :=
  if topAddr ≠ self then some .continue_
  else if height = 1 then none
  else some .restart

/-- The `_span_to_width` call of `CT_Tc._grow_to` with its `vMerge_val`. -/
def growSpanStep (t : Tbl) (r c width height : Nat) (topAddr : Nat × Nat) :
    Except TableError Tbl :=
  _span_to_width t r c width topAddr (growVMerge topAddr (r, c) height)

/-- `CT_Tc._grow_to`: grow the cell at (r, c) to `width` grid columns and
`height` rows, `top_tc` receiving all content; recursion on the rows below
is structural on `height` (only `height > 1` descends). -/
def _grow_to (t : Tbl) (r c width : Nat) : Nat → Option (Nat × Nat) → Except TableError Tbl
  | 0, topAddr? => growSpanStep t r c width 0 (topAddr?.getD (r, c))
  | 1, topAddr? => growSpanStep t r c width 1 (topAddr?.getD (r, c))
  | hh + 2, topAddr? =>
    match growSpanStep t r c width (hh + 2) (topAddr?.getD (r, c)) with
    | .error e => .error e
    | .ok t1 =>
      match t1.trs[r + 1]? with
      | none => .error (.valueError "assert tc_below is not None failed")
      | some trBelow =>
        match tc_at_grid_offset trBelow (gridOffsetAt ((t1.trs[r]?).getD ⟨0, []⟩) c : Int) with
        | .error e => .error e
        | .ok c' => _grow_to t1 (r + 1) c' width (hh + 1) (some (topAddr?.getD (r, c)))

/-- `CT_Tc.merge`: extents from `_span_dimensions`, then grow the top-left
cell of the union; returns (address of the top-left cell, updated table). -/
def merge (t : Tbl) (ra ca rb cb : Nat) :
    Except TableError ((Nat × Nat) × Tbl) :=
  match _span_dimensions t ra ca rb cb with
  | .error e => .error e
  | .ok (top, left, height, width) =>
    match t.trs[top]? with
    | none => .error (.valueError "tr_lst index out of range")
    | some topTr =>
      match tc_at_grid_offset topTr (left : Int) with
      | .error e => .error e
      | .ok cTop =>
        match _grow_to t top cTop width height none with
        | .error e => .error e
        | .ok t' => .ok ((top, cTop), t')

end Docx.Table


namespace Docx.Table

/-- A freshly created cell: span 1, no merge marker, no width, one empty
paragraph. -/
def emptyCell : Tc := ⟨1, none, none, [Block.p 0]⟩

/-- A 3x3 table over a uniform grid, as built by `add_table(3, 3)`. -/
def uniform3x3 : Tbl :=
  ⟨[⟨0, [emptyCell, emptyCell, emptyCell]⟩,
    ⟨0, [emptyCell, emptyCell, emptyCell]⟩,
    ⟨0, [emptyCell, emptyCell, emptyCell]⟩]⟩

/-- A table on a 3-column grid whose row 0 has a pre-existing 2-column-wide
cell at column 0 (then a 1-wide cell) and whose row 1 is uniform. -/
def rowSpanTable : Tbl :=
  ⟨[⟨0, [⟨2, none, none, [Block.p 0]⟩, emptyCell]⟩,
    ⟨0, [emptyCell, emptyCell, emptyCell]⟩]⟩

/-- A table whose row 0 is one 3-wide cell and whose row 1 is uniform: a
horizontal tee shape for merge requests from (0,0) to (1,1). -/
def teeTable : Tbl :=
  ⟨[⟨0, [⟨3, none, none, [Block.p 0]⟩]⟩,
    ⟨0, [emptyCell, emptyCell, emptyCell]⟩]⟩

end Docx.Table


namespace Docx.Table

/-- Decidable equality of `Except` results, for evaluating the model at
concrete inputs. -/
instance exceptDecEq {e a : Type} [DecidableEq e] [DecidableEq a] :
    DecidableEq (Except e a) := fun x y =>
  match x, y with
  | .ok v, .ok w =>
    match decEq v w with
    | isTrue h => isTrue (h ▸ rfl)
    | isFalse h => isFalse (fun hc => h (Except.ok.inj hc))
  | .error v, .error w =>
    match decEq v w with
    | isTrue h => isTrue (h ▸ rfl)
    | isFalse h => isFalse (fun hc => h (Except.error.inj hc))
  | .ok _, .error _ => isFalse (fun hc => Except.noConfusion hc)
  | .error _, .ok _ => isFalse (fun hc => Except.noConfusion hc)

end Docx.Table


namespace Docx.Pkg

/-- A relationship as seen by the graph walkers (opc/package.py): external
relationships are skipped without touching their target; internal ones have
a target part.  Part identity is any decidable-equality type. -/
inductive PRel (α : Type) where
  | external
  | internal (target : α)
deriving DecidableEq

/-- `OpcPackage.iter_parts`'s inner `walk_parts source visited` generator:
for each relationship of the source, skip external targets, skip
already-visited parts, and otherwise record the part as visited, yield it,
and walk its own relationships with the shared `visited` list.  `g` maps a
part to its relationships; the result is (yielded parts, final visited).
`fuel` bounds the recursion depth; it is spent only when descending into a
newly visited part, so any fuel at least the number of distinct parts is
never exhausted (the 0-fuel branch models the unreachable unbounded
descent by truncating). -/
def walkParts {α : Type} [DecidableEq α] (g : α → List (PRel α)) :
    Nat → List (PRel α) → List α → List α × List α
  | _, [], visited => ([], visited)
  | fuel, rel :: rest, visited =>
    match rel with
    | .external => walkParts g fuel rest visited
    | .internal part =>
      if part ∈ visited then walkParts g fuel rest visited
      else
        match fuel with
        | 0 => ([part], visited ++ [part])
        | fuel' + 1 =>
          let res1 := walkParts g fuel' (g part) (visited ++ [part])
          let res2 := walkParts g (fuel' + 1) rest res1.2
          (part :: (res1.1 ++ res2.1), res2.2)
  termination_by fuel rels => (fuel, rels.length)

/-- `OpcPackage.iter_parts`: depth-first walk from the package's own
relationships `R`, starting with an empty visited list. -/
def iter_parts {α : Type} [DecidableEq α] (g : α → List (PRel α))
    (R : List (PRel α)) (fuel : Nat) : List α :=
  (walkParts g fuel R []).1

/-- `OpcPackage.iter_rels`'s inner `walk_rels` generator: every relationship
of the source is yielded (identified by its (source, index) tag, sources
tagged `none` for the package itself and `some part` for a part), then
internal targets not yet visited are recorded and descended into.  The
traversal of `visited` is identical to `walk_parts`. -/
def walkRelsLoop {α : Type} [DecidableEq α] (g : α → List (PRel α)) :
    Nat → Option α → Nat → List (PRel α) → List α →
      List (Option α × Nat) × List α
  | _, _, _, [], visited => ([], visited)
  | fuel, src, i, rel :: rest, visited =>
    match rel with
    | .external =>
      let res := walkRelsLoop g fuel src (i + 1) rest visited
      ((src, i) :: res.1, res.2)
    | .internal part =>
      if part ∈ visited then
        let res := walkRelsLoop g fuel src (i + 1) rest visited
        ((src, i) :: res.1, res.2)
      else
        match fuel with
        | 0 => ([(src, i)], visited ++ [part])
        | fuel' + 1 =>
          let res1 := walkRelsLoop g fuel' (some part) 0 (g part) (visited ++ [part])
          let res2 := walkRelsLoop g (fuel' + 1) src (i + 1) rest res1.2
          ((src, i) :: (res1.1 ++ res2.1), res2.2)
  termination_by fuel _ _ rels => (fuel, rels.length)

/-- `OpcPackage.iter_rels`. -/
def iter_rels {α : Type} [DecidableEq α] (g : α → List (PRel α))
    (R : List (PRel α)) (fuel : Nat) : List (Option α × Nat) :=
  (walkRelsLoop g fuel none 0 R []).1

/-- A serialized relationship (opc/pkgreader.py `_SerializedRelationship`):
externality flag, target partname and reltype. -/
structure SRel (α : Type) where
  is_external : Bool
  target_partname : α
  reltype : String
deriving DecidableEq

/-- The walker's view of a serialized relationship. -/
def SRel.toPRel {α : Type} (srel : SRel α) : PRel α :=
  if srel.is_external then .external else .internal srel.target_partname

/-- `PackageReader._walk_phys_parts`: yield a `(partname, blob, reltype,
srels)` 4-tuple for each part reached while walking the serialized
relationship graph, guarding on `visited_partnames` exactly like
`walk_parts`.  `srelsFor` models `PackageReader._srels_for` and `blobFor`
models `phys_reader.blob_for`. -/
def walkPhys {α : Type} [DecidableEq α] (srelsFor : α → List (SRel α))
    (blobFor : α → Nat) :
    Nat → List (SRel α) → List α → List (α × Nat × String × List (SRel α)) × List α
  | _, [], visited => ([], visited)
  | fuel, srel :: rest, visited =>
    if srel.is_external then walkPhys srelsFor blobFor fuel rest visited
    else
      let partname := srel.target_partname
      if partname ∈ visited then walkPhys srelsFor blobFor fuel rest visited
      else
        match fuel with
        | 0 => ([(partname, blobFor partname, srel.reltype, srelsFor partname)],
                visited ++ [partname])
        | fuel' + 1 =>
          let part_srels := srelsFor partname
          let res1 := walkPhys srelsFor blobFor fuel' part_srels (visited ++ [partname])
          let res2 := walkPhys srelsFor blobFor (fuel' + 1) rest res1.2
          ((partname, blobFor partname, srel.reltype, part_srels) :: (res1.1 ++ res2.1),
            res2.2)
  termination_by fuel srels => (fuel, srels.length)

/-- Parts reachable from the package along internal relationships: the
targets of the package's own relationships `R` and, inductively, the targets
of relationships of reachable parts. -/
inductive Reach {α : Type} (g : α → List (PRel α)) (R : List (PRel α)) : α → Prop where
  | base {p : α} : PRel.internal p ∈ R → Reach g R p
  | step {p q : α} : Reach g R p → PRel.internal q ∈ g p → Reach g R q

end Docx.Pkg

namespace Docx.Xmlchemy

/-- Children of an element, modelled by their tag names in document order. -/
abbrev Children : Type := List String

/-- `BaseOxmlElement.first_child_found_in`: try each tagname in turn; for
each, `find` locates the first child with that tag in document order; the
first tagname that has a child wins.  We return the position of the child
found rather than the child itself. -/
def first_child_found_in (children : Children) (tagnames : List String) : Option Nat :=
  match tagnames with
  | [] => none
  | tagname :: rest =>
    match children.indexOf? tagname with
    | some i => some i
    | none => first_child_found_in children rest

/-- `BaseOxmlElement.insert_element_before`: insert right before the
successor child when one is found (`addprevious`), else append.  This is the
single inserter `_BaseChildElement._add_inserter` installs for every
cardinality kind, called with the declared successor tags. -/
def insert_element_before (children : Children) (tag : String)
    (tagnames : List String) : Children :=
  match first_child_found_in children tagnames with
  | some i => children.take i ++ tag :: children.drop i
  | none => children ++ [tag]

/-- Position of a tag in a declared `_tag_seq`. -/
def seqIdx (seq : List String) (t : String) : Nat := seq.indexOf t

/-- The canonical order on tags induced by a `_tag_seq`. -/
def seqLE (seq : List String) (a b : String) : Prop := seqIdx seq a ≤ seqIdx seq b

instance (seq : List String) (a b : String) : Decidable (seqLE seq a b) :=
  inferInstanceAs (Decidable (seqIdx seq a ≤ seqIdx seq b))

end Docx.Xmlchemy

-- ===================== Theorems =====================

namespace Docx.Shared

/-- C9: `Twips(1440)` is exactly one inch (914400 EMU), `Pt(12)` is 152400 EMU,
the EMU→twips→EMU round trip is the identity on multiples of 635 EMU, and
otherwise the round trip moves the value by at most 317 EMU (round to nearest). -/
theorem twips_pt_conversions :
    Twips 1440 = 914400 ∧ Twips 1440 = EMUS_PER_INCH ∧ Pt 12 = 152400 ∧
    (∀ emu : Int, (635 : Int) ∣ emu → Twips (Length.twips emu) = emu) ∧
    (∀ emu : Int, (Twips (Length.twips emu) - emu).natAbs ≤ 317) := by
  refine ⟨by decide, by decide, by decide, ?_, ?_⟩
  · rintro emu ⟨k, rfl⟩
    have h : ((635 * k : Int) : ℚ) / (EMUS_PER_TWIP : ℚ) = (k : ℚ) := by
      push_cast [EMUS_PER_TWIP]
      field_simp
    rw [Length.twips, h, round_intCast, Twips, EMUS_PER_TWIP, mul_comm]
  · intro emu
    set q : ℚ := (emu : ℚ) / (EMUS_PER_TWIP : ℚ) with hq
    have h635 : (EMUS_PER_TWIP : ℚ) = 635 := by norm_num [EMUS_PER_TWIP]
    have hround : |q - round q| ≤ 1 / 2 := abs_sub_round q
    have hdiff : |((Twips (Length.twips emu) - emu : Int) : ℚ)| ≤ 635 / 2 := by
      have hemu : (emu : ℚ) = 635 * q := by
        rw [hq, h635]; field_simp
      have : ((Twips (Length.twips emu) - emu : Int) : ℚ) = 635 * (round q - q) := by
        push_cast [Twips, Length.twips, EMUS_PER_TWIP, ← hq]
        rw [hemu]; ring
      rw [this, abs_mul, abs_sub_comm]
      calc |(635 : ℚ)| * |q - round q| ≤ 635 * (1 / 2) := by
            rw [abs_of_nonneg (by norm_num : (0:ℚ) ≤ 635)]
            exact mul_le_mul_of_nonneg_left hround (by norm_num)
        _ = 635 / 2 := by norm_num
    have habs : ((|Twips (Length.twips emu) - emu| : Int) : ℚ) < 318 := by
      rw [Int.cast_abs]; linarith [hdiff]
    have h318 : |Twips (Length.twips emu) - emu| < 318 := by exact_mod_cast habs
    have := abs_lt.mp h318
    omega

/-- Witness for C9: the round trip is the identity at the concrete multiple
1270 = 2 · 635 of a twip. -/
theorem twips_pt_conversions_witness :
    Twips (Length.twips 1270) = 1270 :=
  twips_pt_conversions.2.2.2.1 1270 ⟨2, rfl⟩

end Docx.Shared

namespace Docx.StrNat

lemma digitVal_digitChar {d : Nat} (h : d < 10) : digitVal (Nat.digitChar d) = d := by
  interval_cases d <;> decide

lemma toDigitsCore_append (b : Nat) :
    ∀ (fuel n : Nat) (ds : List Char),
      Nat.toDigitsCore b fuel n ds = Nat.toDigitsCore b fuel n [] ++ ds := by
  intro fuel
  induction fuel with
  | zero => intro n ds; rfl
  | succ f ih =>
    intro n ds
    simp only [Nat.toDigitsCore]
    by_cases h : n / b = 0
    · simp [h]
    · rw [if_neg h, if_neg h, ih (n / b) (Nat.digitChar (n % b) :: ds),
        ih (n / b) [Nat.digitChar (n % b)], List.append_assoc, List.singleton_append]

lemma valList_append_singleton (cs : List Char) (c : Char) :
    valList (cs ++ [c]) = 10 * valList cs + digitVal c := by
  simp [valList, List.foldl_append]

lemma valList_toDigitsCore :
    ∀ (fuel n : Nat), n < fuel → valList (Nat.toDigitsCore 10 fuel n []) = n := by
  intro fuel
  induction fuel with
  | zero => intro n hn; omega
  | succ f ih =>
    intro n hn
    simp only [Nat.toDigitsCore]
    by_cases h : n / 10 = 0
    · rw [if_pos h]
      have hlt : n % 10 < 10 := Nat.mod_lt n (by norm_num)
      have : valList [Nat.digitChar (n % 10)] = n % 10 := by
        simp [valList, digitVal_digitChar hlt]
      rw [this]
      omega
    · rw [if_neg h, toDigitsCore_append 10 f (n / 10) [Nat.digitChar (n % 10)],
        valList_append_singleton, ih (n / 10) (by omega),
        digitVal_digitChar (Nat.mod_lt n (by norm_num))]
      omega

lemma val_repr (n : Nat) : valList (Nat.repr n).data = n := by
  show valList (List.asString (Nat.toDigitsCore 10 (n + 1) n [])).data = n
  show valList (Nat.toDigitsCore 10 (n + 1) n []) = n
  exact valList_toDigitsCore (n + 1) n (Nat.lt_succ_self n)

lemma repr_injective : Function.Injective Nat.repr := by
  intro m n h
  have := congrArg (fun s : String => valList s.data) h
  simpa [val_repr] using this

end Docx.StrNat

namespace Docx.Rels

lemma rIdCandidate_injective : Function.Injective rIdCandidate := by
  intro m n h
  have hdata : "rId".data ++ (Nat.repr m).data = "rId".data ++ (Nat.repr n).data := by
    have := congrArg String.data h
    simpa [rIdCandidate, String.data_append] using this
  exact Docx.StrNat.repr_injective (by
    apply String.ext
    exact List.append_cancel_left hdata)

end Docx.Rels

namespace Docx.Rels

lemma nextRIdFrom_spec (ks : List String) :
    ∀ (fuel n : Nat),
      (∃ i, i < fuel ∧ rIdCandidate (n + i) ∉ ks) →
      ∃ i, i < fuel ∧ rIdCandidate (n + i) ∉ ks ∧
        (∀ j, j < i → rIdCandidate (n + j) ∈ ks) ∧
        nextRIdFrom ks n fuel = some (rIdCandidate (n + i)) := by
  intro fuel
  induction fuel with
  | zero => rintro n ⟨i, hi, -⟩; omega
  | succ f ih =>
    rintro n ⟨i, hi, hfree⟩
    by_cases hmem : rIdCandidate n ∈ ks
    · have hi0 : i ≠ 0 := by rintro rfl; simp at hfree; exact hfree hmem
      obtain ⟨i', hi', hfree', hmin', heq'⟩ :=
        ih (n + 1) ⟨i - 1, by omega, by rw [show n + 1 + (i - 1) = n + i by omega]; exact hfree⟩
      refine ⟨i' + 1, by omega, ?_, ?_, ?_⟩
      · rw [show n + (i' + 1) = n + 1 + i' by omega]; exact hfree'
      · intro j hj
        match j with
        | 0 => simpa using hmem
        | j' + 1 =>
          rw [show n + (j' + 1) = n + 1 + j' by omega]
          exact hmin' j' (by omega)
      · rw [show nextRIdFrom ks n (f + 1) = nextRIdFrom ks (n + 1) f by
          simp [nextRIdFrom, hmem]]
        rw [heq', show n + 1 + i' = n + (i' + 1) by omega]
    · exact ⟨0, by omega, by simpa using hmem, by omega, by simp [nextRIdFrom, hmem]⟩

lemma exists_free_candidate (ks : List String) (len : Nat) (hlen : ks.length ≤ len) :
    ∃ i, i < len + 1 ∧ rIdCandidate (1 + i) ∉ ks := by
  by_contra hcon
  push_neg at hcon
  have hinj : Function.Injective (fun i : Nat => rIdCandidate (1 + i)) := by
    intro a b hab
    have := rIdCandidate_injective hab
    omega
  have hsub : (Finset.range (len + 1)).image (fun i => rIdCandidate (1 + i)) ⊆ ks.toFinset := by
    intro x hx
    simp only [Finset.mem_image, Finset.mem_range] at hx
    obtain ⟨i, hi, rfl⟩ := hx
    exact List.mem_toFinset.mpr (hcon i hi)
  have hcard := Finset.card_le_card hsub
  rw [Finset.card_image_of_injective _ hinj, Finset.card_range] at hcard
  have := ks.toFinset_card_le
  omega

/-- C2: `_next_rId` always succeeds and allocates `"rId<n>"` for the smallest
positive `n` whose id is not already a key, with `n` within the scanned range
`1 .. len + 1`; in particular a collection holding exactly rId1 and rId3
allocates rId2 next. -/
theorem next_rId_smallest_gap :
    (∀ s : Relationships,
      ∃ n : Nat, 1 ≤ n ∧ n ≤ s.length + 1 ∧
        next_rId s = some (rIdCandidate n) ∧
        rIdCandidate n ∉ keys s ∧
        (∀ m : Nat, 1 ≤ m → m < n → rIdCandidate m ∈ keys s)) ∧
    next_rId [⟨"rId1", "t", Sum.inl 0, false⟩, ⟨"rId3", "t", Sum.inl 1, false⟩]
      = some "rId2" := by
  constructor
  · intro s
    have hlen : (keys s).length ≤ s.length := by simp [keys]
    obtain ⟨i, hi, hfree, hmin, heq⟩ :=
      nextRIdFrom_spec (keys s) (s.length + 1) 1
        (exists_free_candidate (keys s) s.length hlen)
    refine ⟨1 + i, by omega, by omega, ?_, hfree, ?_⟩
    · simpa [next_rId] using heq
    · intro m hm1 hmn
      have : rIdCandidate (1 + (m - 1)) ∈ keys s := hmin (m - 1) (by omega)
      rwa [show 1 + (m - 1) = m by omega] at this
  · rfl

/-- Witness for C2 at the concrete collection holding rId1 and rId3. -/
theorem next_rId_smallest_gap_witness :
    ∃ n : Nat, 1 ≤ n ∧ n ≤ 3 ∧
      next_rId [⟨"rId1", "t", Sum.inl 0, false⟩, ⟨"rId3", "t", Sum.inl 1, false⟩]
        = some (rIdCandidate n) ∧
      rIdCandidate n ∉ keys [⟨"rId1", "t", Sum.inl 0, false⟩, ⟨"rId3", "t", Sum.inl 1, false⟩] ∧
      (∀ m : Nat, 1 ≤ m → m < n →
        rIdCandidate m ∈ keys [⟨"rId1", "t", Sum.inl 0, false⟩, ⟨"rId3", "t", Sum.inl 1, false⟩]) :=
  next_rId_smallest_gap.1 [⟨"rId1", "t", Sum.inl 0, false⟩, ⟨"rId3", "t", Sum.inl 1, false⟩]

end Docx.Rels

namespace Docx.Rels

lemma relMatches_true_iff (rel : Relationship) (t : String) (target : Part ⊕ String)
    (ext : Bool) :
    relMatches rel t target ext = true ↔
      rel.reltype = t ∧ rel.isExternal = ext ∧ rel.target = target := by
  unfold relMatches
  split_ifs <;> simp_all

lemma dictSet_of_not_mem_keys :
    ∀ (s : Relationships) (rel : Relationship), rel.rId ∉ keys s →
      dictSet s rel = s ++ [rel] := by
  intro s
  induction s with
  | nil => intro rel _; rfl
  | cons r rest ih =>
    intro rel hrel
    simp only [keys, List.map_cons, List.mem_cons] at hrel
    push_neg at hrel
    simp only [dictSet, if_neg (Ne.symm hrel.1), List.cons_append]
    rw [ih rel (by simpa [keys] using hrel.2)]

lemma eq_of_mem_keys_nodup {s : Relationships} (h : (keys s).Nodup)
    {a b : Relationship} (ha : a ∈ s) (hb : b ∈ s) (hab : a.rId = b.rId) : a = b :=
  List.inj_on_of_nodup_map (f := Relationship.rId) h ha hb hab

lemma get_or_add_cases (s : Relationships) (t : String) (p : Part) :
    (∃ rel, _get_matching s t (.inl p) false = some rel ∧
      get_or_add s t p = some (rel, s)) ∨
    (∃ n, _get_matching s t (.inl p) false = none ∧
      rIdCandidate n ∉ keys s ∧
      get_or_add s t p =
        some (⟨rIdCandidate n, t, .inl p, false⟩, s ++ [⟨rIdCandidate n, t, .inl p, false⟩])) := by
  cases hm : _get_matching s t (.inl p) false with
  | some rel => exact .inl ⟨rel, rfl, by simp [get_or_add, hm]⟩
  | none =>
    obtain ⟨n, -, -, hnext, hfree, -⟩ := next_rId_smallest_gap.1 s
    refine .inr ⟨n, rfl, hfree, ?_⟩
    simp only [get_or_add, hm, hnext, add_relationship]
    rw [dictSet_of_not_mem_keys s _ hfree]

lemma get_or_add_ext_cases (s : Relationships) (t : String) (ref : String) :
    (∃ rel, _get_matching s t (.inr ref) true = some rel ∧
      get_or_add_ext_rel s t ref = some (rel.rId, s)) ∨
    (∃ n, _get_matching s t (.inr ref) true = none ∧
      rIdCandidate n ∉ keys s ∧
      get_or_add_ext_rel s t ref =
        some (rIdCandidate n, s ++ [⟨rIdCandidate n, t, .inr ref, true⟩])) := by
  cases hm : _get_matching s t (.inr ref) true with
  | some rel => exact .inl ⟨rel, rfl, by simp [get_or_add_ext_rel, hm]⟩
  | none =>
    obtain ⟨n, -, -, hnext, hfree, -⟩ := next_rId_smallest_gap.1 s
    refine .inr ⟨n, rfl, hfree, ?_⟩
    simp only [get_or_add_ext_rel, hm, hnext, add_relationship]
    rw [dictSet_of_not_mem_keys s _ hfree]

end Docx.Rels

namespace Docx.Rels

lemma _get_matching_some {s : Relationships} {t : String} {target : Part ⊕ String}
    {ext : Bool} {rel : Relationship} (h : _get_matching s t target ext = some rel) :
    rel ∈ s ∧ rel.reltype = t ∧ rel.isExternal = ext ∧ rel.target = target := by
  have h' : s.find? (fun rel => relMatches rel t target ext) = some rel := h
  have hb : relMatches rel t target ext = true := by
    have hb' := List.find?_some h'
    simpa using hb'
  exact ⟨List.mem_of_find?_eq_some h', (relMatches_true_iff _ _ _ _).mp hb⟩

lemma keys_append_nodup {s : Relationships} {rel : Relationship}
    (hnd : (keys s).Nodup) (hfree : rel.rId ∉ keys s) : (keys (s ++ [rel])).Nodup := by
  have h : keys (s ++ [rel]) = keys s ++ [rel.rId] := by simp [keys]
  rw [h]
  exact List.Nodup.append hnd (List.nodup_singleton _) (by simpa using hfree)

lemma get_or_add_rel_spec (s : Relationships) (t : String) (p : Part)
    {rel1 : Relationship} {s1 : Relationships}
    (h : get_or_add s t p = some (rel1, s1)) :
    rel1 ∈ s1 ∧ rel1.reltype = t ∧ rel1.isExternal = false ∧ rel1.target = .inl p ∧
      (s1 = s ∨ (s1 = s ++ [rel1] ∧ rel1.rId ∉ keys s)) := by
  rcases get_or_add_cases s t p with ⟨rel, hm, heq⟩ | ⟨n, hm, hfree, heq⟩ <;>
    rw [heq] at h <;> injection h with h' <;> injection h' with ha hb
  · obtain ⟨hmem, hrt, hext, htg⟩ := _get_matching_some hm
    rw [← ha, ← hb]
    exact ⟨hmem, hrt, hext, htg, .inl rfl⟩
  · rw [← ha, ← hb]
    exact ⟨by simp, rfl, rfl, rfl, .inr ⟨rfl, hfree⟩⟩

/-- C3: get-or-add is idempotent (the second identical request returns the
same relationship and leaves the collection unchanged, so at most one entry
is added); a request for a different target part yields a distinct rId;
external get-or-add is idempotent the same way; and a lookup never matches a
relationship whose externality differs from the request's. -/
theorem get_or_add_dedup :
    (∀ (s : Relationships) (t : String) (p : Part),
      ∃ rel1 s1, get_or_add s t p = some (rel1, s1) ∧
        get_or_add s1 t p = some (rel1, s1) ∧
        s.length ≤ s1.length ∧ s1.length ≤ s.length + 1) ∧
    (∀ (s : Relationships) (t : String) (p q : Part), p ≠ q → (keys s).Nodup →
      ∀ rel1 s1 rel2 s2,
        get_or_add s t p = some (rel1, s1) →
        get_or_add s1 t q = some (rel2, s2) →
        rel2.rId ≠ rel1.rId) ∧
    (∀ (s : Relationships) (t ref : String),
      ∃ rId1 s1, get_or_add_ext_rel s t ref = some (rId1, s1) ∧
        get_or_add_ext_rel s1 t ref = some (rId1, s1)) ∧
    (∀ (s : Relationships) (t : String) (target : Part ⊕ String) (ext : Bool) rel,
      _get_matching s t target ext = some rel → rel.isExternal = ext) := by
  refine ⟨?_, ?_, ?_, ?_⟩
  · intro s t p
    rcases get_or_add_cases s t p with ⟨rel, hm, heq⟩ | ⟨n, hm, hfree, heq⟩
    · exact ⟨rel, s, heq, heq, le_refl _, by omega⟩
    · set rel1 : Relationship := ⟨rIdCandidate n, t, .inl p, false⟩ with hrel1
      refine ⟨rel1, s ++ [rel1], heq, ?_, by simp, by simp⟩
      have hm1 : _get_matching (s ++ [rel1]) t (.inl p) false = some rel1 := by
        show (s ++ [rel1]).find? (fun rel => relMatches rel t (.inl p) false) = some rel1
        rw [List.find?_append]
        have hmn : s.find? (fun rel => relMatches rel t (.inl p) false) = none := hm
        rw [hmn]
        simp [relMatches_true_iff, hrel1]
      simp [get_or_add, hm1]
  · intro s t p q hpq hnd rel1 s1 rel2 s2 h1 h2
    obtain ⟨hmem1, hrt1, hext1, htg1, hstate1⟩ := get_or_add_rel_spec s t p h1
    obtain ⟨hmem2, hrt2, hext2, htg2, hstate2⟩ := get_or_add_rel_spec s1 t q h2
    have hnd1 : (keys s1).Nodup := by
      rcases hstate1 with rfl | ⟨rfl, hfree⟩
      · exact hnd
      · exact keys_append_nodup hnd hfree
    intro hId
    rcases hstate2 with rfl | ⟨-, hfree2⟩
    · have heqrel : rel2 = rel1 := eq_of_mem_keys_nodup hnd1 hmem2 hmem1 hId
      rw [heqrel, htg1] at htg2
      injection htg2 with h
      exact hpq h
    · exact hfree2 (hId ▸ List.mem_map_of_mem Relationship.rId hmem1)
  · intro s t ref
    rcases get_or_add_ext_cases s t ref with ⟨rel, hm, heq⟩ | ⟨n, hm, hfree, heq⟩
    · exact ⟨rel.rId, s, heq, heq⟩
    · set rel1 : Relationship := ⟨rIdCandidate n, t, .inr ref, true⟩ with hrel1
      refine ⟨rIdCandidate n, s ++ [rel1], heq, ?_⟩
      have hm1 : _get_matching (s ++ [rel1]) t (.inr ref) true = some rel1 := by
        show (s ++ [rel1]).find? (fun rel => relMatches rel t (.inr ref) true) = some rel1
        rw [List.find?_append]
        have hmn : s.find? (fun rel => relMatches rel t (.inr ref) true) = none := hm
        rw [hmn]
        simp [relMatches_true_iff, hrel1]
      simp [get_or_add_ext_rel, hm1]
  · intro s t target ext rel hm
    exact (_get_matching_some hm).2.2.1

/-- Witness for C3: starting from the empty collection, adding target part 0
and then target part 1 yields the distinct ids rId2 ≠ rId1. -/
theorem get_or_add_dedup_witness : "rId2" ≠ "rId1" :=
  get_or_add_dedup.2.1 [] "t" 0 1 (by decide) (by decide)
    ⟨"rId1", "t", .inl 0, false⟩ [⟨"rId1", "t", .inl 0, false⟩]
    ⟨"rId2", "t", .inl 1, false⟩ [⟨"rId1", "t", .inl 0, false⟩, ⟨"rId2", "t", .inl 1, false⟩]
    rfl rfl

end Docx.Rels

namespace Docx.Rels

/-- C6: `part_with_reltype` returns the target of the unique relationship of
the requested type, raises `KeyError` when there is none, raises `ValueError`
when there is more than one (never silently picking one), and raises the
`target_part` `ValueError` when the unique match is external. -/
theorem part_with_reltype_spec :
    ∀ (s : Relationships) (t : String),
      (s.filter (fun rel => rel.reltype == t) = [] →
        part_with_reltype s t =
          .error (.keyError ("no relationship of type " ++ t ++ " in collection"))) ∧
      (∀ r1 r2 rest, s.filter (fun rel => rel.reltype == t) = r1 :: r2 :: rest →
        part_with_reltype s t =
          .error (.valueError ("multiple relationships of type " ++ t ++ " in collection"))) ∧
      (∀ rel, s.filter (fun rel => rel.reltype == t) = [rel] → rel.isExternal = false →
        part_with_reltype s t = .ok rel.target) ∧
      (∀ rel, s.filter (fun rel => rel.reltype == t) = [rel] → rel.isExternal = true →
        part_with_reltype s t =
          .error (.valueError
            "target_part property on _Relationship is undefined when target mode is External")) := by
  intro s t
  refine ⟨?_, ?_, ?_, ?_⟩
  · intro h
    simp [part_with_reltype, _get_rel_of_type, h]
  · intro r1 r2 rest h
    simp [part_with_reltype, _get_rel_of_type, h]
  · intro rel h hext
    simp [part_with_reltype, _get_rel_of_type, h, Relationship.target_part, hext]
  · intro rel h hext
    simp [part_with_reltype, _get_rel_of_type, h, Relationship.target_part, hext]

/-- Witness for C6: on a collection holding one internal relationship of type
t and one of type u, requesting type t returns the target part. -/
theorem part_with_reltype_spec_witness :
    part_with_reltype
        [⟨"rId1", "t", .inl 7, false⟩, ⟨"rId2", "u", .inl 8, false⟩] "t"
      = .ok (.inl 7) :=
  (part_with_reltype_spec
      [⟨"rId1", "t", .inl 7, false⟩, ⟨"rId2", "u", .inl 8, false⟩] "t").2.2.1
    ⟨"rId1", "t", .inl 7, false⟩ (by decide) rfl

end Docx.Rels

namespace Docx.CType

lemma dictLookup_dictSet_self : ∀ (d : CIDict) (k v : String),
    dictLookup (dictSet d k v) k = some v := by
  intro d k v
  induction d with
  | nil => simp [dictSet, dictLookup]
  | cons kv rest ih =>
    obtain ⟨k', v'⟩ := kv
    by_cases h : k' = k
    · simp [dictSet, dictLookup, h]
    · simp [dictSet, dictLookup, h, ih]

/-- C5: content-type resolution returns the per-partname Override when one
matches (taking precedence over any extension Default), otherwise the Default
for the partname's extension, and otherwise fails with an error naming the
offending partname; keys are stored and looked up lowercased, so both
override and extension matching are case-insensitive. -/
theorem content_type_resolution :
    (∀ (m : ContentTypeMap) (pn ct : String),
      ciGet m.overrides pn = some ct → getitem m pn = .ok ct) ∧
    (∀ (m : ContentTypeMap) (pn ct : String),
      ciGet m.overrides pn = none → ciGet m.defaults (ext pn) = some ct →
        getitem m pn = .ok ct) ∧
    (∀ (m : ContentTypeMap) (pn : String),
      ciGet m.overrides pn = none → ciGet m.defaults (ext pn) = none →
        getitem m pn =
          .error ("no content type for partname " ++ pn ++ " in [Content_Types].xml")) ∧
    (∀ (d : CIDict) (k v pn : String), lower pn = lower k →
      ciGet (dictSet d (lower k) v) pn = some v) ∧
    (getitem (_add_default (_add_override ⟨[], []⟩ "/word/document.xml" "OVR") "xml" "DFT")
        "/word/document.xml" = .ok "OVR") ∧
    (getitem (_add_default (_add_override ⟨[], []⟩ "/word/document.xml" "OVR") "xml" "DFT")
        "/WORD/Document.XML" = .ok "OVR") ∧
    (getitem (_add_default (_add_override ⟨[], []⟩ "/word/document.xml" "OVR") "xml" "DFT")
        "/word/other.XML" = .ok "DFT") := by
  refine ⟨?_, ?_, ?_, ?_, by rfl, by rfl, by rfl⟩
  · intro m pn ct h
    simp [getitem, h]
  · intro m pn ct h1 h2
    simp [getitem, h1, h2]
  · intro m pn h1 h2
    simp [getitem, h1, h2]
  · intro d k v pn hpn
    show dictLookup (dictSet d (lower k) v) (lower pn) = some v
    rw [hpn]
    exact dictLookup_dictSet_self d (lower k) v

/-- Witness for C5: an Override for the exact partname wins over the
extension Default on a concrete two-entry map. -/
theorem content_type_resolution_witness :
    getitem ⟨[("/word/document.xml", "OVR")], [("xml", "DFT")]⟩ "/word/document.xml"
      = .ok "OVR" :=
  content_type_resolution.1 ⟨[("/word/document.xml", "OVR")], [("xml", "DFT")]⟩
    "/word/document.xml" "OVR" (by rfl)

end Docx.CType

namespace Docx.Table

/-- C7: merging (0,0) with (1,1) in a uniform 3x3 table succeeds and returns
the top-left cell of the union, which spans 2 grid columns and carries the
`restart` vertical-merge marker; the cell directly below it (at grid offset
0 of row 1) also spans 2 columns and carries the `continue` marker. -/
theorem merge_3x3_diagonal :
    merge uniform3x3 0 0 1 1 =
      .ok ((0, 0),
        ⟨[⟨0, [⟨2, some .restart, none, [Block.p 0]⟩, emptyCell]⟩,
          ⟨0, [⟨2, some .continue_, none, [Block.p 0]⟩, emptyCell]⟩,
          ⟨0, [emptyCell, emptyCell, emptyCell]⟩]⟩) ∧
    (∀ res, merge uniform3x3 0 0 1 1 = .ok res →
      (tcAt res.2 res.1.1 res.1.2 = some ⟨2, some .restart, none, [Block.p 0]⟩ ∧
       tc_at_grid_offset (res.2.trs[1]?.getD ⟨0, []⟩) 0 = .ok 0 ∧
       tcAt res.2 1 0 = some ⟨2, some .continue_, none, [Block.p 0]⟩)) := by
  refine ⟨by decide, ?_⟩
  intro res h
  have hres : res = ((0, 0),
      (⟨[⟨0, [⟨2, some .restart, none, [Block.p 0]⟩, emptyCell]⟩,
         ⟨0, [⟨2, some .continue_, none, [Block.p 0]⟩, emptyCell]⟩,
         ⟨0, [emptyCell, emptyCell, emptyCell]⟩]⟩ : Tbl)) := by
    have h' : Except.ok (ε := TableError) res = .ok ((0, 0),
        (⟨[⟨0, [⟨2, some .restart, none, [Block.p 0]⟩, emptyCell]⟩,
           ⟨0, [⟨2, some .continue_, none, [Block.p 0]⟩, emptyCell]⟩,
           ⟨0, [emptyCell, emptyCell, emptyCell]⟩]⟩ : Tbl)) :=
      h.symm.trans (by decide)
    injection h'
  subst hres
  exact ⟨rfl, rfl, rfl⟩

end Docx.Table

namespace Docx.Table

/-- C8 counterexample: merging (0,0) with (1,2) in the table whose row 0 has
a pre-existing 2-column-wide cell at column 0 and whose row 1 is uniform does
NOT raise; the span grows to the full 2-row, 3-column rectangle. -/
theorem merge_rowSpanTable_succeeds :
    merge rowSpanTable 0 0 1 2 =
      .ok ((0, 0),
        ⟨[⟨0, [⟨3, some .restart, none, [Block.p 0]⟩]⟩,
          ⟨0, [⟨3, some .continue_, none, [Block.p 0]⟩]⟩]⟩) := by decide

/-- C8 (amended): `_span_dimensions` (and hence `merge`) rejects with
`InvalidSpanError` every corner pair whose extents share one vertical (or
horizontal) edge coordinate but differ in the other, and every pair where
one cell's extent strictly contains the other's on an axis; the concrete
(0,0)–(1,2) request over `rowSpanTable` is not such a shape and succeeds,
producing a 2-row, 3-column span. -/
theorem span_dimensions_rejects :
    (∀ (t : Tbl) (ra ca rb cb ta ba tb bb : Nat),
      top t ra ca = .ok ta → bottom t ra ca = .ok ba →
      top t rb cb = .ok tb → bottom t rb cb = .ok bb →
      ((ta = tb ∧ ba ≠ bb) ∨
       (left t ra ca = left t rb cb ∧ right t ra ca ≠ right t rb cb) ∨
       (ta < tb ∧ ba > bb) ∨ (tb < ta ∧ bb > ba) ∨
       (left t ra ca < left t rb cb ∧ right t ra ca > right t rb cb) ∨
       (left t rb cb < left t ra ca ∧ right t rb cb > right t ra ca)) →
      _span_dimensions t ra ca rb cb =
        .error (.invalidSpan "requested span not rectangular") ∧
      merge t ra ca rb cb = .error (.invalidSpan "requested span not rectangular")) ∧
    merge rowSpanTable 0 0 1 2 =
      .ok ((0, 0),
        ⟨[⟨0, [⟨3, some .restart, none, [Block.p 0]⟩]⟩,
          ⟨0, [⟨3, some .continue_, none, [Block.p 0]⟩]⟩]⟩) := by
  constructor
  · intro t ra ca rb cb ta ba tb bb h1 h2 h3 h4 hcond
    have hspan : _span_dimensions t ra ca rb cb =
        .error (.invalidSpan "requested span not rectangular") := by
      simp only [_span_dimensions, h1, h2, h3, h4]
      split_ifs <;>
        first
        | rfl
        | (exfalso; rcases hcond with h | h | h | h | h | h <;> omega)
    refine ⟨hspan, ?_⟩
    simp only [merge, hspan]
  · decide

/-- Witness for C8 (amended): a one-cell 3-wide row over a uniform row forms
a horizontal tee, and the merge request from (0,0) to (1,1) is rejected. -/
theorem span_dimensions_rejects_witness :
    _span_dimensions teeTable 0 0 1 1 =
      .error (.invalidSpan "requested span not rectangular") ∧
    merge teeTable 0 0 1 1 = .error (.invalidSpan "requested span not rectangular") :=
  span_dimensions_rejects.1 teeTable 0 0 1 1 0 1 1 2 (by decide) (by decide) (by decide) (by decide)
    (Or.inr (Or.inr (Or.inr (Or.inr (Or.inl (by constructor <;> decide))))))

end Docx.Table

namespace Docx.Table

lemma sum_take_succ_cons (tc : Tc) (rest : List Tc) (k : Nat) :
    (((((tc :: rest).take (k + 1)).map Tc.gridSpan).sum : Nat) : Int) =
      (tc.gridSpan : Int) + ((((rest.take k).map Tc.gridSpan).sum : Nat) : Int) := by
  rw [List.take_succ_cons, List.map_cons, List.sum_cons, Nat.cast_add]

lemma tcScan_ok_iff :
    ∀ (tcs : List Tc) (rem : Int) (j : Nat),
      tcScan rem tcs = .ok j ↔
        (j < tcs.length ∧ ((((tcs.take j).map Tc.gridSpan).sum : Nat) : Int) = rem ∧
          ∀ j' < j, ((((tcs.take j').map Tc.gridSpan).sum : Nat) : Int) ≠ rem) := by
  intro tcs
  induction tcs with
  | nil =>
    intro rem j
    simp [tcScan]
  | cons tc rest ih =>
    intro rem j
    simp only [tcScan]
    by_cases h1 : rem < 0
    · rw [if_pos h1]
      constructor
      · intro h; exact absurd h (by simp)
      · rintro ⟨hj, hsum, -⟩
        exfalso
        have hge : (0 : Int) ≤ ((((tc :: rest).take j).map Tc.gridSpan).sum : Nat) :=
          Int.natCast_nonneg _
        omega
    · rw [if_neg h1]
      by_cases h2 : rem = 0
      · rw [if_pos h2]
        subst h2
        constructor
        · intro h
          injection h with h
          subst h
          refine ⟨by simp, by simp, by omega⟩
        · rintro ⟨hj, hsum, hmin⟩
          match j with
          | 0 => rfl
          | j' + 1 =>
            exfalso
            exact hmin 0 (by omega) (by simp)
      · rw [if_neg h2]
        cases hx : tcScan (rem - (tc.gridSpan : Int)) rest with
        | error e =>
          simp only [Except.map, hx]
          constructor
          · intro h; exact absurd h (by simp)
          · rintro ⟨hj, hsum, hmin⟩
            exfalso
            match j with
            | 0 => simp at hsum; omega
            | j' + 1 =>
              have hok : tcScan (rem - (tc.gridSpan : Int)) rest = .ok j' := by
                rw [ih]
                refine ⟨by simpa using hj, ?_, ?_⟩
                · rw [sum_take_succ_cons] at hsum
                  omega
                · intro k hk
                  have hne := hmin (k + 1) (by omega)
                  rw [sum_take_succ_cons] at hne
                  omega
              rw [hok] at hx
              exact Except.noConfusion hx
        | ok j0 =>
          simp only [Except.map, hx]
          have hspec := (ih (rem - (tc.gridSpan : Int)) j0).mp hx
          constructor
          · intro h
            injection h with h
            subst h
            refine ⟨by simpa using hspec.1, ?_, ?_⟩
            · rw [sum_take_succ_cons]
              have := hspec.2.1
              omega
            · intro k hk
              match k with
              | 0 =>
                simp
                omega
              | k' + 1 =>
                have := hspec.2.2 k' (by omega)
                rw [sum_take_succ_cons]
                omega
          · rintro ⟨hj, hsum, hmin⟩
            match j with
            | 0 =>
              exfalso
              simp at hsum
              omega
            | j' + 1 =>
              have hok : tcScan (rem - (tc.gridSpan : Int)) rest = .ok j' := by
                rw [ih]
                refine ⟨by simpa using hj, ?_, ?_⟩
                · rw [sum_take_succ_cons] at hsum
                  omega
                · intro k hk
                  have hne := hmin (k + 1) (by omega)
                  rw [sum_take_succ_cons] at hne
                  omega
              rw [hok] at hx
              injection hx with hx
              simp [hx]

end Docx.Table

namespace Docx.Table

lemma tcScan_error_iff (tcs : List Tc) (rem : Int) :
    (∃ e, tcScan rem tcs = .error e) ↔
      ∀ j < tcs.length, ((((tcs.take j).map Tc.gridSpan).sum : Nat) : Int) ≠ rem := by
  classical
  constructor
  · rintro ⟨e, he⟩ j hj hsum
    by_cases hex : ∃ k, k < tcs.length ∧ ((((tcs.take k).map Tc.gridSpan).sum : Nat) : Int) = rem
    · obtain ⟨k, hk⟩ := hex
      have hexP : ∃ k, (fun k => k < tcs.length ∧
          ((((tcs.take k).map Tc.gridSpan).sum : Nat) : Int) = rem) k := ⟨k, hk⟩
      have hfind := Nat.find_spec hexP
      set k0 := Nat.find hexP with hk0
      have hok : tcScan rem tcs = .ok k0 := by
        rw [tcScan_ok_iff]
        refine ⟨hfind.1, hfind.2, ?_⟩
        intro j' hj' hj'sum
        have hj'len : j' < tcs.length := by
          have := hfind.1
          omega
        exact Nat.find_min hexP hj' ⟨hj'len, hj'sum⟩
      rw [hok] at he
      exact Except.noConfusion he
    · exact hex ⟨j, hj, hsum⟩
  · intro hall
    cases hx : tcScan rem tcs with
    | error e => exact ⟨e, rfl⟩
    | ok j =>
      exfalso
      have := (tcScan_ok_iff tcs rem j).mp hx
      exact hall j this.1 this.2.1

/-- C10: `tc_at_grid_offset` returns the index of the cell of the row whose
starting grid offset (accounting for the row's `grid_before` and the
cumulative spans of preceding cells, i.e. `CT_Tc.grid_offset`) is exactly
the requested offset — the first such cell — and raises `ValueError` exactly
when no cell of the row starts at that offset (offsets inside a
multi-column span or past the end of the row included). -/
theorem tc_at_grid_offset_spec :
    ∀ (tr : Tr) (off : Int),
      (∀ j, tc_at_grid_offset tr off = .ok j →
        j < tr.tcs.length ∧ (gridOffsetAt tr j : Int) = off ∧
        ∀ j' < j, (gridOffsetAt tr j' : Int) ≠ off) ∧
      ((∃ e, tc_at_grid_offset tr off = .error e) ↔
        ∀ j < tr.tcs.length, (gridOffsetAt tr j : Int) ≠ off) := by
  intro tr off
  have hoffs : ∀ j, (gridOffsetAt tr j : Int) =
      (tr.gridBefore : Int) + ((((tr.tcs.take j).map Tc.gridSpan).sum : Nat) : Int) := by
    intro j
    rw [gridOffsetAt, Nat.cast_add]
  constructor
  · intro j hj
    have := (tcScan_ok_iff tr.tcs (off - (tr.gridBefore : Int)) j).mp hj
    refine ⟨this.1, ?_, ?_⟩
    · rw [hoffs]
      omega
    · intro j' hj'
      have hne := this.2.2 j' hj'
      rw [hoffs]
      omega
  · show (∃ e, tcScan (off - (tr.gridBefore : Int)) tr.tcs = .error e) ↔ _
    rw [tcScan_error_iff]
    constructor
    · intro h j hj
      have := h j hj
      rw [hoffs]
      omega
    · intro h j hj
      have := h j hj
      rw [hoffs] at this
      omega

/-- Witness for C10 on a concrete row [2-wide, 1-wide] with grid_before 0:
offset 2 selects the second cell, which indeed starts at grid offset 2, and
offset 1 (inside the first cell's span) raises. -/
theorem tc_at_grid_offset_spec_witness :
    (2 < 3 ∧ (gridOffsetAt ⟨0, [⟨2, none, none, []⟩, ⟨1, none, none, []⟩, ⟨1, none, none, []⟩]⟩ 2 : Int) = 3 ∧
      ∀ j' < 2, (gridOffsetAt ⟨0, [⟨2, none, none, []⟩, ⟨1, none, none, []⟩, ⟨1, none, none, []⟩]⟩ j' : Int) ≠ 3) ∧
    (∀ j < ([⟨2, none, none, []⟩, ⟨1, none, none, []⟩, ⟨1, none, none, []⟩] : List Tc).length,
      (gridOffsetAt ⟨0, [⟨2, none, none, []⟩, ⟨1, none, none, []⟩, ⟨1, none, none, []⟩]⟩ j : Int) ≠ 1) := by
  constructor
  · exact (tc_at_grid_offset_spec ⟨0, [⟨2, none, none, []⟩, ⟨1, none, none, []⟩, ⟨1, none, none, []⟩]⟩ 3).1
      2 (by decide)
  · exact (tc_at_grid_offset_spec ⟨0, [⟨2, none, none, []⟩, ⟨1, none, none, []⟩, ⟨1, none, none, []⟩]⟩ 1).2.mp
      ⟨.valueError "no tc element at grid_offset", by decide⟩

end Docx.Table

namespace Docx.Pkg

lemma walkParts_visited_append {α : Type} [DecidableEq α] (g : α → List (PRel α)) :
    ∀ (fuel : Nat) (rels : List (PRel α)) (visited : List α),
      (walkParts g fuel rels visited).2 = visited ++ (walkParts g fuel rels visited).1 := by
  intro fuel
  induction fuel with
  | zero =>
    intro rels
    induction rels with
    | nil => intro v; simp [walkParts]
    | cons rel rest ih =>
      intro v
      match rel with
      | .external => simpa [walkParts] using ih v
      | .internal part =>
        by_cases hmem : part ∈ v
        · simpa [walkParts, hmem] using ih v
        · simp [walkParts, hmem]
  | succ f ihf =>
    intro rels
    induction rels with
    | nil => intro v; simp [walkParts]
    | cons rel rest ih =>
      intro v
      match rel with
      | .external => simpa [walkParts] using ih v
      | .internal part =>
        by_cases hmem : part ∈ v
        · simpa [walkParts, hmem] using ih v
        · simp only [walkParts, if_neg hmem]
          rw [ih ((walkParts g f (g part) (v ++ [part])).2), ihf (g part) (v ++ [part])]
          simp

lemma walkParts_nil {α : Type} [DecidableEq α] (g : α → List (PRel α))
    (fuel : Nat) (v : List α) : walkParts g fuel [] v = ([], v) := by
  cases fuel <;> simp [walkParts]

lemma walkParts_cons_external {α : Type} [DecidableEq α] (g : α → List (PRel α))
    (fuel : Nat) (rest : List (PRel α)) (v : List α) :
    walkParts g fuel (.external :: rest) v = walkParts g fuel rest v := by
  cases fuel <;> simp [walkParts]

lemma walkParts_cons_mem {α : Type} [DecidableEq α] (g : α → List (PRel α))
    {part : α} {v : List α} (h : part ∈ v) (fuel : Nat) (rest : List (PRel α)) :
    walkParts g fuel (.internal part :: rest) v = walkParts g fuel rest v := by
  cases fuel <;> simp [walkParts, h]

lemma walkParts_cons_new {α : Type} [DecidableEq α] (g : α → List (PRel α))
    {part : α} {v : List α} (h : part ∉ v) (fuel' : Nat) (rest : List (PRel α)) :
    walkParts g (fuel' + 1) (.internal part :: rest) v =
      (part :: ((walkParts g fuel' (g part) (v ++ [part])).1 ++
          (walkParts g (fuel' + 1) rest ((walkParts g fuel' (g part) (v ++ [part])).2)).1),
        (walkParts g (fuel' + 1) rest ((walkParts g fuel' (g part) (v ++ [part])).2)).2) := by
  simp [walkParts, h]

lemma walkParts_cons_new_zero {α : Type} [DecidableEq α] (g : α → List (PRel α))
    {part : α} {v : List α} (h : part ∉ v) (rest : List (PRel α)) :
    walkParts g 0 (.internal part :: rest) v = ([part], v ++ [part]) := by
  simp [walkParts, h]

lemma nodup_append_singleton {α : Type} {v : List α} {part : α}
    (hv : v.Nodup) (hmem : part ∉ v) : (v ++ [part]).Nodup := by
  simp [List.nodup_append, hv, hmem]

lemma walkParts_visited_nodup {α : Type} [DecidableEq α] (g : α → List (PRel α)) :
    ∀ (fuel : Nat) (rels : List (PRel α)) (visited : List α),
      visited.Nodup → ((walkParts g fuel rels visited).2).Nodup := by
  intro fuel
  induction fuel with
  | zero =>
    intro rels
    induction rels with
    | nil => intro v hv; simpa [walkParts] using hv
    | cons rel rest ih =>
      intro v hv
      match rel with
      | .external => simpa [walkParts] using ih v hv
      | .internal part =>
        by_cases hmem : part ∈ v
        · simpa [walkParts, hmem] using ih v hv
        · simpa [walkParts, hmem] using nodup_append_singleton hv hmem
  | succ f ihf =>
    intro rels
    induction rels with
    | nil => intro v hv; simpa [walkParts] using hv
    | cons rel rest ih =>
      intro v hv
      match rel with
      | .external => simpa [walkParts] using ih v hv
      | .internal part =>
        by_cases hmem : part ∈ v
        · simpa [walkParts, hmem] using ih v hv
        · simp only [walkParts, if_neg hmem]
          exact ih ((walkParts g f (g part) (v ++ [part])).2)
            (ihf (g part) (v ++ [part]) (nodup_append_singleton hv hmem))

lemma walkParts_sound {α : Type} [DecidableEq α] (g : α → List (PRel α))
    (R : List (PRel α)) :
    ∀ (fuel : Nat) (rels : List (PRel α)) (visited : List α),
      (∀ p, PRel.internal p ∈ rels → Reach g R p) →
      ∀ x ∈ (walkParts g fuel rels visited).1, Reach g R x := by
  intro fuel
  induction fuel with
  | zero =>
    intro rels
    induction rels with
    | nil => intro v _ x hx; simp [walkParts] at hx
    | cons rel rest ih =>
      intro v hrels x hx
      match rel with
      | .external =>
        simp only [walkParts] at hx
        exact ih v (fun p hp => hrels p (List.mem_cons_of_mem _ hp)) x hx
      | .internal part =>
        by_cases hmem : part ∈ v
        · simp only [walkParts, if_pos hmem] at hx
          exact ih v (fun p hp => hrels p (List.mem_cons_of_mem _ hp)) x hx
        · simp only [walkParts, if_neg hmem] at hx
          simp at hx
          subst hx
          exact hrels x (List.mem_cons_self _ _)
  | succ f ihf =>
    intro rels
    induction rels with
    | nil => intro v _ x hx; simp [walkParts] at hx
    | cons rel rest ih =>
      intro v hrels x hx
      match rel with
      | .external =>
        simp only [walkParts] at hx
        exact ih v (fun p hp => hrels p (List.mem_cons_of_mem _ hp)) x hx
      | .internal part =>
        by_cases hmem : part ∈ v
        · simp only [walkParts, if_pos hmem] at hx
          exact ih v (fun p hp => hrels p (List.mem_cons_of_mem _ hp)) x hx
        · simp only [walkParts, if_neg hmem, List.mem_cons, List.mem_append] at hx
          have hpart : Reach g R part := hrels part (List.mem_cons_self _ _)
          rcases hx with rfl | hx1 | hx2
          · exact hpart
          · exact ihf (g part) (v ++ [part])
              (fun p hp => Reach.step hpart hp) x hx1
          · exact ih ((walkParts g f (g part) (v ++ [part])).2)
              (fun p hp => hrels p (List.mem_cons_of_mem _ hp)) x hx2

end Docx.Pkg


namespace Docx.Pkg

lemma walkParts_visited_mono {α : Type} [DecidableEq α] (g : α → List (PRel α))
    (fuel : Nat) (rels : List (PRel α)) (visited : List α) {x : α} (hx : x ∈ visited) :
    x ∈ (walkParts g fuel rels visited).2 := by
  rw [walkParts_visited_append]
  exact List.mem_append_left _ hx

lemma toFinset_append_singleton {α : Type} [DecidableEq α] (v : List α) (part : α) :
    (v ++ [part]).toFinset = insert part v.toFinset := by
  ext x
  simp [or_comm]

lemma card_sdiff_append_singleton {α : Type} [DecidableEq α] {U : Finset α}
    {v : List α} {part : α} (hU : part ∈ U) (hv : part ∉ v) :
    (U \ (v ++ [part]).toFinset).card + 1 = (U \ v.toFinset).card := by
  have hmem : part ∈ U \ v.toFinset := Finset.mem_sdiff.mpr ⟨hU, by simpa using hv⟩
  have hins : U \ (v ++ [part]).toFinset = (U \ v.toFinset).erase part := by
    rw [toFinset_append_singleton]
    ext x
    simp only [Finset.mem_sdiff, Finset.mem_insert, Finset.mem_erase]
    tauto
  rw [hins, Finset.card_erase_of_mem hmem,
    Nat.sub_add_cancel (Finset.card_pos.mpr ⟨part, hmem⟩)]

lemma card_sdiff_le_of_subset {α : Type} [DecidableEq α] {U : Finset α}
    {v w : List α} (h : ∀ x ∈ v, x ∈ w) :
    (U \ w.toFinset).card ≤ (U \ v.toFinset).card := by
  apply Finset.card_le_card
  apply Finset.sdiff_subset_sdiff (le_refl U)
  intro x hx
  simp only [List.mem_toFinset] at hx ⊢
  exact h x hx

lemma walkParts_complete {α : Type} [DecidableEq α] (g : α → List (PRel α))
    (U : Finset α) (HU : ∀ p q, PRel.internal q ∈ g p → q ∈ U) :
    ∀ (fuel : Nat) (rels : List (PRel α)) (visited : List α),
      (∀ q, PRel.internal q ∈ rels → q ∈ U) → visited.Nodup →
      (U \ visited.toFinset).card ≤ fuel →
      (∀ q, PRel.internal q ∈ rels → q ∈ (walkParts g fuel rels visited).2) ∧
      (∀ p ∈ (walkParts g fuel rels visited).1, ∀ q, PRel.internal q ∈ g p →
        q ∈ (walkParts g fuel rels visited).2) := by
  intro fuel
  induction fuel with
  | zero =>
    intro rels v hrels hv hcard
    have hsub : U ⊆ v.toFinset := by
      rw [← Finset.sdiff_eq_empty_iff_subset]
      exact Finset.card_eq_zero.mp (by omega)
    have hall : ∀ q, PRel.internal q ∈ rels → q ∈ v := by
      intro q hq
      have := hsub (hrels q hq)
      simpa using this
    clear hrels hcard
    induction rels with
    | nil =>
      constructor
      · intro q hq; simp at hq
      · intro p hp; simp [walkParts] at hp
    | cons rel rest ih =>
      have hall' : ∀ q, PRel.internal q ∈ rest → q ∈ v :=
        fun q hq => hall q (List.mem_cons_of_mem _ hq)
      match rel with
      | .external =>
        constructor
        · intro q hq
          simp only [walkParts]
          rcases List.mem_cons.mp hq with h | h
          · exact absurd h (by simp)
          · exact (ih hall').1 q h
        · intro p hp
          simp only [walkParts] at hp ⊢
          exact (ih hall').2 p hp
      | .internal part =>
        have hpartv : part ∈ v := hall part (List.mem_cons_self _ _)
        constructor
        · intro q hq
          simp only [walkParts, if_pos hpartv]
          rcases List.mem_cons.mp hq with h | h
          · injection h with h; subst h
            exact walkParts_visited_mono g 0 rest v hpartv
          · exact (ih hall').1 q h
        · intro p hp
          simp only [walkParts, if_pos hpartv] at hp ⊢
          exact (ih hall').2 p hp
  | succ f ihf =>
    intro rels
    induction rels with
    | nil =>
      intro v hrels hv hcard
      constructor
      · intro q hq; simp at hq
      · intro p hp; simp [walkParts] at hp
    | cons rel rest ih =>
      intro v hrels hv hcard
      have hrels' : ∀ q, PRel.internal q ∈ rest → q ∈ U :=
        fun q hq => hrels q (List.mem_cons_of_mem _ hq)
      match rel with
      | .external =>
        constructor
        · intro q hq
          simp only [walkParts]
          rcases List.mem_cons.mp hq with h | h
          · exact absurd h (by simp)
          · exact (ih v hrels' hv hcard).1 q h
        · intro p hp
          simp only [walkParts] at hp ⊢
          exact (ih v hrels' hv hcard).2 p hp
      | .internal part =>
        by_cases hmem : part ∈ v
        · constructor
          · intro q hq
            simp only [walkParts, if_pos hmem]
            rcases List.mem_cons.mp hq with h | h
            · injection h with h; subst h
              exact walkParts_visited_mono g (f + 1) rest v hmem
            · exact (ih v hrels' hv hcard).1 q h
          · intro p hp
            simp only [walkParts, if_pos hmem] at hp ⊢
            exact (ih v hrels' hv hcard).2 p hp
        · -- descend
          have hpartU : part ∈ U := hrels part (List.mem_cons_self _ _)
          have hv1 : (v ++ [part]).Nodup := nodup_append_singleton hv hmem
          have hcard1 : (U \ (v ++ [part]).toFinset).card ≤ f := by
            have := card_sdiff_append_singleton hpartU hmem
            omega
          have hdes := ihf (g part) (v ++ [part]) (HU part) hv1 hcard1
          have hres1nd : ((walkParts g f (g part) (v ++ [part])).2).Nodup :=
            walkParts_visited_nodup g f (g part) (v ++ [part]) hv1
          have hres1mono : ∀ x ∈ v ++ [part], x ∈ (walkParts g f (g part) (v ++ [part])).2 :=
            fun x hx => walkParts_visited_mono g f (g part) (v ++ [part]) hx
          have hcard2 : (U \ ((walkParts g f (g part) (v ++ [part])).2).toFinset).card ≤ f + 1 :=
            le_trans (card_sdiff_le_of_subset hres1mono) (le_trans hcard1 (by omega))
          have hsib := ih ((walkParts g f (g part) (v ++ [part])).2) hrels' hres1nd hcard2
          have hmono2 : ∀ x ∈ (walkParts g f (g part) (v ++ [part])).2,
              x ∈ (walkParts g (f + 1) rest ((walkParts g f (g part) (v ++ [part])).2)).2 :=
            fun x hx => walkParts_visited_mono g (f + 1) rest _ hx
          constructor
          · intro q hq
            simp only [walkParts, if_neg hmem]
            rcases List.mem_cons.mp hq with h | h
            · injection h with h; subst h
              exact hmono2 _ (hres1mono _ (List.mem_append_right _ (List.mem_singleton_self _)))
            · exact (hsib).1 q h
          · intro p hp
            simp only [walkParts, if_neg hmem] at hp ⊢
            rcases List.mem_cons.mp hp with rfl | hp'
            · intro q hq
              exact hmono2 _ ((hdes).1 q hq)
            · rcases List.mem_append.mp hp' with hp1 | hp2
              · intro q hq
                exact hmono2 _ ((hdes).2 p hp1 q hq)
              · intro q hq
                exact (hsib).2 p hp2 q hq


lemma walkParts_fuel_irrel {α : Type} [DecidableEq α] (g : α → List (PRel α))
    (U : Finset α) (HU : ∀ p q, PRel.internal q ∈ g p → q ∈ U) :
    ∀ (f1 f2 : Nat) (rels : List (PRel α)) (v : List α),
      (∀ q, PRel.internal q ∈ rels → q ∈ U) →
      (U \ v.toFinset).card ≤ f1 → (U \ v.toFinset).card ≤ f2 →
      walkParts g f1 rels v = walkParts g f2 rels v := by
  intro f1
  induction f1 with
  | zero =>
    intro f2 rels v hrels hc1 hc2
    have hsub : U ⊆ v.toFinset := by
      rw [← Finset.sdiff_eq_empty_iff_subset]
      exact Finset.card_eq_zero.mp (by omega)
    have hall : ∀ q, PRel.internal q ∈ rels → q ∈ v := by
      intro q hq
      have := hsub (hrels q hq)
      simpa using this
    clear hrels hc1 hc2
    induction rels with
    | nil => simp [walkParts]
    | cons rel rest ih =>
      have hall' : ∀ q, PRel.internal q ∈ rest → q ∈ v :=
        fun q hq => hall q (List.mem_cons_of_mem _ hq)
      match rel with
      | .external =>
        rw [walkParts_cons_external, walkParts_cons_external]
        exact ih hall'
      | .internal part =>
        have hpartv : part ∈ v := hall part (List.mem_cons_self _ _)
        rw [walkParts_cons_mem g hpartv, walkParts_cons_mem g hpartv]
        exact ih hall'
  | succ f1' ihf =>
    intro f2 rels
    induction rels with
    | nil => intro v _ _ _; simp [walkParts]
    | cons rel rest ih =>
      intro v hrels hc1 hc2
      have hrels' : ∀ q, PRel.internal q ∈ rest → q ∈ U :=
        fun q hq => hrels q (List.mem_cons_of_mem _ hq)
      match rel with
      | .external =>
        rw [walkParts_cons_external, walkParts_cons_external]
        exact ih v hrels' hc1 hc2
      | .internal part =>
        by_cases hmem : part ∈ v
        · rw [walkParts_cons_mem g hmem, walkParts_cons_mem g hmem]
          exact ih v hrels' hc1 hc2
        · have hpartU : part ∈ U := hrels part (List.mem_cons_self _ _)
          have hone : 0 < (U \ v.toFinset).card := by
            apply Finset.card_pos.mpr
            exact ⟨part, Finset.mem_sdiff.mpr ⟨hpartU, by simpa using hmem⟩⟩
          match f2 with
          | 0 => omega
          | f2' + 1 =>
            have hcv1 := card_sdiff_append_singleton hpartU hmem
            have hc1' : (U \ (v ++ [part]).toFinset).card ≤ f1' := by omega
            have hc2' : (U \ (v ++ [part]).toFinset).card ≤ f2' := by omega
            have hdes : walkParts g f1' (g part) (v ++ [part]) =
                walkParts g f2' (g part) (v ++ [part]) :=
              ihf f2' (g part) (v ++ [part]) (HU part) hc1' hc2'
            rw [walkParts_cons_new g hmem, walkParts_cons_new g hmem, hdes]
            have hmono : ∀ x ∈ v ++ [part],
                x ∈ (walkParts g f2' (g part) (v ++ [part])).2 :=
              fun x hx => walkParts_visited_mono g f2' (g part) (v ++ [part]) hx
            have hcs : (U \ ((walkParts g f2' (g part) (v ++ [part])).2).toFinset).card ≤
                (U \ (v ++ [part]).toFinset).card := card_sdiff_le_of_subset hmono
            rw [ih ((walkParts g f2' (g part) (v ++ [part])).2) hrels'
              (by omega) (by omega)]


lemma walkRelsLoop_nil {α : Type} [DecidableEq α] (g : α → List (PRel α))
    (fuel : Nat) (src : Option α) (i : Nat) (v : List α) :
    walkRelsLoop g fuel src i [] v = ([], v) := by
  cases fuel <;> simp [walkRelsLoop]

lemma walkRelsLoop_cons_external {α : Type} [DecidableEq α] (g : α → List (PRel α))
    (fuel : Nat) (src : Option α) (i : Nat) (rest : List (PRel α)) (v : List α) :
    walkRelsLoop g fuel src i (.external :: rest) v =
      ((src, i) :: (walkRelsLoop g fuel src (i + 1) rest v).1,
        (walkRelsLoop g fuel src (i + 1) rest v).2) := by
  cases fuel <;> simp [walkRelsLoop]

lemma walkRelsLoop_cons_mem {α : Type} [DecidableEq α] (g : α → List (PRel α))
    {part : α} {v : List α} (h : part ∈ v) (fuel : Nat) (src : Option α) (i : Nat)
    (rest : List (PRel α)) :
    walkRelsLoop g fuel src i (.internal part :: rest) v =
      ((src, i) :: (walkRelsLoop g fuel src (i + 1) rest v).1,
        (walkRelsLoop g fuel src (i + 1) rest v).2) := by
  cases fuel <;> simp [walkRelsLoop, h]

lemma walkRelsLoop_cons_new_zero {α : Type} [DecidableEq α] (g : α → List (PRel α))
    {part : α} {v : List α} (h : part ∉ v) (src : Option α) (i : Nat)
    (rest : List (PRel α)) :
    walkRelsLoop g 0 src i (.internal part :: rest) v = ([(src, i)], v ++ [part]) := by
  simp [walkRelsLoop, h]

lemma walkRelsLoop_cons_new {α : Type} [DecidableEq α] (g : α → List (PRel α))
    {part : α} {v : List α} (h : part ∉ v) (fuel' : Nat) (src : Option α) (i : Nat)
    (rest : List (PRel α)) :
    walkRelsLoop g (fuel' + 1) src i (.internal part :: rest) v =
      ((src, i) :: ((walkRelsLoop g fuel' (some part) 0 (g part) (v ++ [part])).1 ++
          (walkRelsLoop g (fuel' + 1) src (i + 1) rest
            ((walkRelsLoop g fuel' (some part) 0 (g part) (v ++ [part])).2)).1),
        (walkRelsLoop g (fuel' + 1) src (i + 1) rest
          ((walkRelsLoop g fuel' (some part) 0 (g part) (v ++ [part])).2)).2) := by
  simp [walkRelsLoop, h]

lemma walkRels_visited_eq {α : Type} [DecidableEq α] (g : α → List (PRel α)) :
    ∀ (fuel : Nat) (rels : List (PRel α)) (src : Option α) (i : Nat) (v : List α),
      (walkRelsLoop g fuel src i rels v).2 = (walkParts g fuel rels v).2 := by
  intro fuel
  induction fuel with
  | zero =>
    intro rels
    induction rels with
    | nil => intro src i v; rw [walkRelsLoop_nil, walkParts_nil]
    | cons rel rest ih =>
      intro src i v
      match rel with
      | .external =>
        rw [walkRelsLoop_cons_external, walkParts_cons_external]
        exact ih src (i + 1) v
      | .internal part =>
        by_cases hmem : part ∈ v
        · rw [walkRelsLoop_cons_mem g hmem, walkParts_cons_mem g hmem]
          exact ih src (i + 1) v
        · rw [walkRelsLoop_cons_new_zero g hmem, walkParts_cons_new_zero g hmem]
  | succ f ihf =>
    intro rels
    induction rels with
    | nil => intro src i v; rw [walkRelsLoop_nil, walkParts_nil]
    | cons rel rest ih =>
      intro src i v
      match rel with
      | .external =>
        rw [walkRelsLoop_cons_external, walkParts_cons_external]
        exact ih src (i + 1) v
      | .internal part =>
        by_cases hmem : part ∈ v
        · rw [walkRelsLoop_cons_mem g hmem, walkParts_cons_mem g hmem]
          exact ih src (i + 1) v
        · rw [walkRelsLoop_cons_new g hmem, walkParts_cons_new g hmem]
          rw [ihf (g part) (some part) 0 (v ++ [part])]
          exact ih src (i + 1) ((walkParts g f (g part) (v ++ [part])).2)

lemma walkRelsLoop_fuel_irrel {α : Type} [DecidableEq α] (g : α → List (PRel α))
    (U : Finset α) (HU : ∀ p q, PRel.internal q ∈ g p → q ∈ U) :
    ∀ (f1 f2 : Nat) (rels : List (PRel α)) (src : Option α) (i : Nat) (v : List α),
      (∀ q, PRel.internal q ∈ rels → q ∈ U) →
      (U \ v.toFinset).card ≤ f1 → (U \ v.toFinset).card ≤ f2 →
      walkRelsLoop g f1 src i rels v = walkRelsLoop g f2 src i rels v := by
  intro f1
  induction f1 with
  | zero =>
    intro f2 rels
    induction rels with
    | nil => intro src i v _ _ _; rw [walkRelsLoop_nil, walkRelsLoop_nil]
    | cons rel rest ih =>
      intro src i v hrels hc1 hc2
      have hsub : U ⊆ v.toFinset := by
        rw [← Finset.sdiff_eq_empty_iff_subset]
        exact Finset.card_eq_zero.mp (by omega)
      have hrels' : ∀ q, PRel.internal q ∈ rest → q ∈ U :=
        fun q hq => hrels q (List.mem_cons_of_mem _ hq)
      match rel with
      | .external =>
        rw [walkRelsLoop_cons_external, walkRelsLoop_cons_external,
          ih src (i + 1) v hrels' hc1 hc2]
      | .internal part =>
        have hpartv : part ∈ v := by
          have := hsub (hrels part (List.mem_cons_self _ _))
          simpa using this
        rw [walkRelsLoop_cons_mem g hpartv, walkRelsLoop_cons_mem g hpartv,
          ih src (i + 1) v hrels' hc1 hc2]
  | succ f1' ihf =>
    intro f2 rels
    induction rels with
    | nil => intro src i v _ _ _; rw [walkRelsLoop_nil, walkRelsLoop_nil]
    | cons rel rest ih =>
      intro src i v hrels hc1 hc2
      have hrels' : ∀ q, PRel.internal q ∈ rest → q ∈ U :=
        fun q hq => hrels q (List.mem_cons_of_mem _ hq)
      match rel with
      | .external =>
        rw [walkRelsLoop_cons_external, walkRelsLoop_cons_external,
          ih src (i + 1) v hrels' hc1 hc2]
      | .internal part =>
        by_cases hmem : part ∈ v
        · rw [walkRelsLoop_cons_mem g hmem, walkRelsLoop_cons_mem g hmem,
            ih src (i + 1) v hrels' hc1 hc2]
        · have hpartU : part ∈ U := hrels part (List.mem_cons_self _ _)
          have hone : 0 < (U \ v.toFinset).card := by
            apply Finset.card_pos.mpr
            exact ⟨part, Finset.mem_sdiff.mpr ⟨hpartU, by simpa using hmem⟩⟩
          match f2 with
          | 0 => omega
          | f2' + 1 =>
            have hcv1 := card_sdiff_append_singleton hpartU hmem
            have hc1' : (U \ (v ++ [part]).toFinset).card ≤ f1' := by omega
            have hc2' : (U \ (v ++ [part]).toFinset).card ≤ f2' := by omega
            have hdes : walkRelsLoop g f1' (some part) 0 (g part) (v ++ [part]) =
                walkRelsLoop g f2' (some part) 0 (g part) (v ++ [part]) :=
              ihf f2' (g part) (some part) 0 (v ++ [part]) (HU part) hc1' hc2'
            rw [walkRelsLoop_cons_new g hmem, walkRelsLoop_cons_new g hmem, hdes]
            have hveq : (walkRelsLoop g f2' (some part) 0 (g part) (v ++ [part])).2 =
                (walkParts g f2' (g part) (v ++ [part])).2 :=
              walkRels_visited_eq g f2' (g part) (some part) 0 (v ++ [part])
            have hmono : ∀ x ∈ v ++ [part],
                x ∈ (walkRelsLoop g f2' (some part) 0 (g part) (v ++ [part])).2 := by
              rw [hveq]
              exact fun x hx => walkParts_visited_mono g f2' (g part) (v ++ [part]) hx
            have hcs : (U \ ((walkRelsLoop g f2' (some part) 0 (g part)
                (v ++ [part])).2).toFinset).card ≤
                (U \ (v ++ [part]).toFinset).card := card_sdiff_le_of_subset hmono
            rw [ih src (i + 1)
              ((walkRelsLoop g f2' (some part) 0 (g part) (v ++ [part])).2) hrels'
              (by omega) (by omega)]


lemma walkPhys_nil {α : Type} [DecidableEq α] (srelsFor : α → List (SRel α))
    (blobFor : α → Nat) (fuel : Nat) (v : List α) :
    walkPhys srelsFor blobFor fuel [] v = ([], v) := by
  cases fuel <;> simp [walkPhys]

lemma walkPhys_cons_external {α : Type} [DecidableEq α] (srelsFor : α → List (SRel α))
    (blobFor : α → Nat) {srel : SRel α} (h : srel.is_external = true)
    (fuel : Nat) (rest : List (SRel α)) (v : List α) :
    walkPhys srelsFor blobFor fuel (srel :: rest) v =
      walkPhys srelsFor blobFor fuel rest v := by
  cases fuel <;> simp [walkPhys, h]

lemma walkPhys_cons_mem {α : Type} [DecidableEq α] (srelsFor : α → List (SRel α))
    (blobFor : α → Nat) {srel : SRel α} {v : List α} (h : srel.is_external = false)
    (hmem : srel.target_partname ∈ v) (fuel : Nat) (rest : List (SRel α)) :
    walkPhys srelsFor blobFor fuel (srel :: rest) v =
      walkPhys srelsFor blobFor fuel rest v := by
  cases fuel <;> simp [walkPhys, h, hmem]

lemma walkPhys_cons_new_zero {α : Type} [DecidableEq α] (srelsFor : α → List (SRel α))
    (blobFor : α → Nat) {srel : SRel α} {v : List α} (h : srel.is_external = false)
    (hmem : srel.target_partname ∉ v) (rest : List (SRel α)) :
    walkPhys srelsFor blobFor 0 (srel :: rest) v =
      ([(srel.target_partname, blobFor srel.target_partname, srel.reltype,
         srelsFor srel.target_partname)], v ++ [srel.target_partname]) := by
  simp [walkPhys, h, hmem]

lemma walkPhys_cons_new {α : Type} [DecidableEq α] (srelsFor : α → List (SRel α))
    (blobFor : α → Nat) {srel : SRel α} {v : List α} (h : srel.is_external = false)
    (hmem : srel.target_partname ∉ v) (fuel' : Nat) (rest : List (SRel α)) :
    walkPhys srelsFor blobFor (fuel' + 1) (srel :: rest) v =
      ((srel.target_partname, blobFor srel.target_partname, srel.reltype,
          srelsFor srel.target_partname) ::
        ((walkPhys srelsFor blobFor fuel' (srelsFor srel.target_partname)
            (v ++ [srel.target_partname])).1 ++
          (walkPhys srelsFor blobFor (fuel' + 1) rest
            ((walkPhys srelsFor blobFor fuel' (srelsFor srel.target_partname)
              (v ++ [srel.target_partname])).2)).1),
        (walkPhys srelsFor blobFor (fuel' + 1) rest
          ((walkPhys srelsFor blobFor fuel' (srelsFor srel.target_partname)
            (v ++ [srel.target_partname])).2)).2) := by
  simp [walkPhys, h, hmem]

lemma walkPhys_sim {α : Type} [DecidableEq α] (srelsFor : α → List (SRel α))
    (blobFor : α → Nat) :
    ∀ (fuel : Nat) (srels : List (SRel α)) (v : List α),
      (walkPhys srelsFor blobFor fuel srels v).2 =
        (walkParts (fun p => (srelsFor p).map SRel.toPRel) fuel
          (srels.map SRel.toPRel) v).2 ∧
      (walkPhys srelsFor blobFor fuel srels v).1.map (fun y => y.1) =
        (walkParts (fun p => (srelsFor p).map SRel.toPRel) fuel
          (srels.map SRel.toPRel) v).1 := by
  intro fuel
  induction fuel with
  | zero =>
    intro srels
    induction srels with
    | nil => intro v; rw [walkPhys_nil, List.map_nil, walkParts_nil]; simp
    | cons srel rest ih =>
      intro v
      cases hext : srel.is_external with
      | true =>
        rw [walkPhys_cons_external srelsFor blobFor hext, List.map_cons,
          show SRel.toPRel srel = PRel.external by simp [SRel.toPRel, hext],
          walkParts_cons_external]
        exact ih v
      | false =>
        by_cases hmem : srel.target_partname ∈ v
        · rw [walkPhys_cons_mem srelsFor blobFor hext hmem, List.map_cons,
            show SRel.toPRel srel = PRel.internal srel.target_partname by
              simp [SRel.toPRel, hext],
            walkParts_cons_mem _ hmem]
          exact ih v
        · rw [walkPhys_cons_new_zero srelsFor blobFor hext hmem, List.map_cons,
            show SRel.toPRel srel = PRel.internal srel.target_partname by
              simp [SRel.toPRel, hext],
            walkParts_cons_new_zero _ hmem]
          simp
  | succ f ihf =>
    intro srels
    induction srels with
    | nil => intro v; rw [walkPhys_nil, List.map_nil, walkParts_nil]; simp
    | cons srel rest ih =>
      intro v
      cases hext : srel.is_external with
      | true =>
        rw [walkPhys_cons_external srelsFor blobFor hext, List.map_cons,
          show SRel.toPRel srel = PRel.external by simp [SRel.toPRel, hext],
          walkParts_cons_external]
        exact ih v
      | false =>
        by_cases hmem : srel.target_partname ∈ v
        · rw [walkPhys_cons_mem srelsFor blobFor hext hmem, List.map_cons,
            show SRel.toPRel srel = PRel.internal srel.target_partname by
              simp [SRel.toPRel, hext],
            walkParts_cons_mem _ hmem]
          exact ih v
        · rw [walkPhys_cons_new srelsFor blobFor hext hmem, List.map_cons,
            show SRel.toPRel srel = PRel.internal srel.target_partname by
              simp [SRel.toPRel, hext],
            walkParts_cons_new _ hmem]
          have hdes := ihf (srelsFor srel.target_partname) (v ++ [srel.target_partname])
          have hsib := ih ((walkPhys srelsFor blobFor f (srelsFor srel.target_partname)
            (v ++ [srel.target_partname])).2)
          rw [hdes.1] at hsib
          refine ⟨?_, ?_⟩
          · dsimp only
            rw [hdes.1]
            exact hsib.1
          · dsimp only
            rw [hdes.1]
            simp only [List.map_cons, List.map_append]
            rw [hsib.2, hdes.2]


lemma walkPhys_fuel_irrel {α : Type} [DecidableEq α] (srelsFor : α → List (SRel α))
    (blobFor : α → Nat) (U : Finset α)
    (HU : ∀ p (srel : SRel α), srel ∈ srelsFor p → srel.is_external = false →
      srel.target_partname ∈ U) :
    ∀ (f1 f2 : Nat) (srels : List (SRel α)) (v : List α),
      (∀ srel : SRel α, srel ∈ srels → srel.is_external = false →
        srel.target_partname ∈ U) →
      (U \ v.toFinset).card ≤ f1 → (U \ v.toFinset).card ≤ f2 →
      walkPhys srelsFor blobFor f1 srels v = walkPhys srelsFor blobFor f2 srels v := by
  intro f1
  induction f1 with
  | zero =>
    intro f2 srels
    induction srels with
    | nil => intro v _ _ _; rw [walkPhys_nil, walkPhys_nil]
    | cons srel rest ih =>
      intro v hrels hc1 hc2
      have hsub : U ⊆ v.toFinset := by
        rw [← Finset.sdiff_eq_empty_iff_subset]
        exact Finset.card_eq_zero.mp (by omega)
      have hrels' : ∀ srel : SRel α, srel ∈ rest → srel.is_external = false →
          srel.target_partname ∈ U :=
        fun s hs => hrels s (List.mem_cons_of_mem _ hs)
      cases hext : srel.is_external with
      | true =>
        rw [walkPhys_cons_external srelsFor blobFor hext,
          walkPhys_cons_external srelsFor blobFor hext,
          ih v hrels' hc1 hc2]
      | false =>
        have hpartv : srel.target_partname ∈ v := by
          have := hsub (hrels srel (List.mem_cons_self _ _) hext)
          simpa using this
        rw [walkPhys_cons_mem srelsFor blobFor hext hpartv,
          walkPhys_cons_mem srelsFor blobFor hext hpartv,
          ih v hrels' hc1 hc2]
  | succ f1' ihf =>
    intro f2 srels
    induction srels with
    | nil => intro v _ _ _; rw [walkPhys_nil, walkPhys_nil]
    | cons srel rest ih =>
      intro v hrels hc1 hc2
      have hrels' : ∀ srel : SRel α, srel ∈ rest → srel.is_external = false →
          srel.target_partname ∈ U :=
        fun s hs => hrels s (List.mem_cons_of_mem _ hs)
      cases hext : srel.is_external with
      | true =>
        rw [walkPhys_cons_external srelsFor blobFor hext,
          walkPhys_cons_external srelsFor blobFor hext,
          ih v hrels' hc1 hc2]
      | false =>
        by_cases hmem : srel.target_partname ∈ v
        · rw [walkPhys_cons_mem srelsFor blobFor hext hmem,
            walkPhys_cons_mem srelsFor blobFor hext hmem,
            ih v hrels' hc1 hc2]
        · have hpartU : srel.target_partname ∈ U :=
            hrels srel (List.mem_cons_self _ _) hext
          have hone : 0 < (U \ v.toFinset).card := by
            apply Finset.card_pos.mpr
            exact ⟨srel.target_partname,
              Finset.mem_sdiff.mpr ⟨hpartU, by simpa using hmem⟩⟩
          match f2 with
          | 0 => omega
          | f2' + 1 =>
            have hcv1 := card_sdiff_append_singleton hpartU hmem
            have hc1' : (U \ (v ++ [srel.target_partname]).toFinset).card ≤ f1' := by
              omega
            have hc2' : (U \ (v ++ [srel.target_partname]).toFinset).card ≤ f2' := by
              omega
            have hdes : walkPhys srelsFor blobFor f1' (srelsFor srel.target_partname)
                  (v ++ [srel.target_partname]) =
                walkPhys srelsFor blobFor f2' (srelsFor srel.target_partname)
                  (v ++ [srel.target_partname]) :=
              ihf f2' (srelsFor srel.target_partname) (v ++ [srel.target_partname])
                (HU srel.target_partname) hc1' hc2'
            rw [walkPhys_cons_new srelsFor blobFor hext hmem,
              walkPhys_cons_new srelsFor blobFor hext hmem, hdes]
            have hveq := (walkPhys_sim srelsFor blobFor f2'
              (srelsFor srel.target_partname) (v ++ [srel.target_partname])).1
            have hmono : ∀ x ∈ v ++ [srel.target_partname],
                x ∈ (walkPhys srelsFor blobFor f2' (srelsFor srel.target_partname)
                  (v ++ [srel.target_partname])).2 := by
              rw [hveq]
              exact fun x hx => walkParts_visited_mono _ f2' _ _ hx
            have hcs : (U \ ((walkPhys srelsFor blobFor f2'
                  (srelsFor srel.target_partname)
                  (v ++ [srel.target_partname])).2).toFinset).card ≤
                (U \ (v ++ [srel.target_partname]).toFinset).card :=
              card_sdiff_le_of_subset hmono
            rw [ih ((walkPhys srelsFor blobFor f2' (srelsFor srel.target_partname)
              (v ++ [srel.target_partname])).2) hrels' (by omega) (by omega)]


lemma toPRel_internal_iff {α : Type} {s : SRel α} {q : α} :
    SRel.toPRel s = PRel.internal q ↔ s.is_external = false ∧ s.target_partname = q := by
  cases hext : s.is_external <;> simp [SRel.toPRel, hext]

lemma iter_parts_out_eq_visited {α : Type} [DecidableEq α] (g : α → List (PRel α))
    (R : List (PRel α)) (fuel : Nat) :
    (walkParts g fuel R []).2 = iter_parts g R fuel := by
  rw [iter_parts, walkParts_visited_append]
  simp

lemma reach_mem_iter_parts {α : Type} [DecidableEq α] (g : α → List (PRel α))
    (R : List (PRel α)) (U : Finset α)
    (HU : ∀ p q, PRel.internal q ∈ g p → q ∈ U)
    (HR : ∀ q, PRel.internal q ∈ R → q ∈ U) :
    ∀ q, Reach g R q → q ∈ iter_parts g R U.card := by
  have hcard : (U \ (List.toFinset ([] : List α))).card ≤ U.card := by simp
  have hC := walkParts_complete g U HU U.card R [] HR (by simp) hcard
  intro q hq
  induction hq with
  | base hmem =>
    have := hC.1 _ hmem
    rwa [iter_parts_out_eq_visited] at this
  | step hreach hrel ihq =>
    rename_i p q' hq'
    have hp1 : _ ∈ (walkParts g U.card R []).1 := ihq
    have := hC.2 _ hp1 _ (by assumption)
    rwa [iter_parts_out_eq_visited] at this

/-- C4: on every finite package graph — cycles and diamonds included — the
depth-first walks are fuel-insensitive once the fuel reaches the number of
possible parts (no infinite recursion), and they reference each reachable
internal part exactly once: `iter_parts` yields a duplicate-free list that
contains exactly the reachable parts, `iter_rels` visits exactly that same
part list while walking, and the package reader's `_walk_phys_parts` yields
a duplicate-free list of exactly the reachable partnames. -/
theorem graph_walks_visit_each_part_once {α : Type} [DecidableEq α]
    (g : α → List (PRel α)) (R : List (PRel α)) (U : Finset α)
    (HU : ∀ p q, PRel.internal q ∈ g p → q ∈ U)
    (HR : ∀ q, PRel.internal q ∈ R → q ∈ U) :
    (iter_parts g R U.card).Nodup ∧
    (∀ p, p ∈ iter_parts g R U.card ↔ Reach g R p) ∧
    (∀ fuel, U.card ≤ fuel → iter_parts g R fuel = iter_parts g R U.card) ∧
    ((walkRelsLoop g U.card none 0 R []).2 = iter_parts g R U.card) ∧
    (∀ fuel, U.card ≤ fuel → iter_rels g R fuel = iter_rels g R U.card) ∧
    (∀ (srelsFor : α → List (SRel α)) (blobFor : α → Nat) (S : List (SRel α)),
      (∀ p (srel : SRel α), srel ∈ srelsFor p → srel.is_external = false →
        srel.target_partname ∈ U) →
      (∀ srel : SRel α, srel ∈ S → srel.is_external = false →
        srel.target_partname ∈ U) →
      ((walkPhys srelsFor blobFor U.card S []).1.map (fun y => y.1)).Nodup ∧
      (∀ p, p ∈ (walkPhys srelsFor blobFor U.card S []).1.map (fun y => y.1) ↔
        Reach (fun p => (srelsFor p).map SRel.toPRel) (S.map SRel.toPRel) p) ∧
      (∀ fuel, U.card ≤ fuel →
        walkPhys srelsFor blobFor fuel S [] = walkPhys srelsFor blobFor U.card S [])) := by
  have hcard0 : ∀ fuel, U.card ≤ fuel → (U \ (List.toFinset ([] : List α))).card ≤ fuel := by
    intro fuel h
    simpa using h
  refine ⟨?_, ?_, ?_, ?_, ?_, ?_⟩
  · rw [← iter_parts_out_eq_visited]
    exact walkParts_visited_nodup g U.card R [] (by simp)
  · intro p
    constructor
    · exact fun hp => walkParts_sound g R U.card R []
        (fun q hq => Reach.base hq) p hp
    · exact fun hp => reach_mem_iter_parts g R U HU HR p hp
  · intro fuel hfuel
    rw [iter_parts, iter_parts,
      walkParts_fuel_irrel g U HU fuel U.card R [] HR (hcard0 fuel hfuel)
        (hcard0 U.card (le_refl _))]
  · rw [walkRels_visited_eq, iter_parts_out_eq_visited]
  · intro fuel hfuel
    rw [iter_rels, iter_rels,
      walkRelsLoop_fuel_irrel g U HU fuel U.card R none 0 [] HR
        (hcard0 fuel hfuel) (hcard0 U.card (le_refl _))]
  · intro srelsFor blobFor S hUphys hSphys
    have hUg : ∀ p q, PRel.internal q ∈ (fun p => (srelsFor p).map SRel.toPRel) p → q ∈ U := by
      intro p q hq
      simp only [List.mem_map] at hq
      obtain ⟨srel, hsrel, htp⟩ := hq
      obtain ⟨hext, htgt⟩ := toPRel_internal_iff.mp htp
      exact htgt ▸ hUphys p srel hsrel hext
    have hRg : ∀ q, PRel.internal q ∈ S.map SRel.toPRel → q ∈ U := by
      intro q hq
      simp only [List.mem_map] at hq
      obtain ⟨srel, hsrel, htp⟩ := hq
      obtain ⟨hext, htgt⟩ := toPRel_internal_iff.mp htp
      exact htgt ▸ hSphys srel hsrel hext
    have hsim := walkPhys_sim srelsFor blobFor U.card S []
    refine ⟨?_, ?_, ?_⟩
    · rw [hsim.2]
      have hnd := walkParts_visited_nodup (fun p => (srelsFor p).map SRel.toPRel)
        U.card (S.map SRel.toPRel) [] (by simp)
      rw [walkParts_visited_append] at hnd
      simpa using hnd
    · intro p
      rw [hsim.2]
      constructor
      · exact fun hp => walkParts_sound _ _ U.card _ []
          (fun q hq => Reach.base hq) p hp
      · exact fun hp => reach_mem_iter_parts _ _ U hUg hRg p hp
    · intro fuel hfuel
      exact walkPhys_fuel_irrel srelsFor blobFor U hUphys fuel U.card S [] hSphys
        (hcard0 fuel hfuel) (hcard0 U.card (le_refl _))


/-- Witness for C4: a concrete cyclic graph on three parts (the package
relates to part 1, part 1 relates to part 2, part 2 relates back to part 1)
is walked without duplicates, and the walk is exactly the reachable set. -/
theorem graph_walks_visit_each_part_once_witness :
    (iter_parts
      (fun p => if p = (1 : Fin 3) then [PRel.internal 2]
        else if p = 2 then [PRel.internal 1] else [])
      [PRel.internal 1] (Finset.univ : Finset (Fin 3)).card).Nodup :=
  (graph_walks_visit_each_part_once
    (fun p => if p = (1 : Fin 3) then [PRel.internal 2]
      else if p = 2 then [PRel.internal 1] else [])
    [PRel.internal 1] Finset.univ (by decide) (by decide)).1

end Docx.Pkg

namespace Docx.Xmlchemy

lemma indexOf?_eq_some_iff {l : List String} {a : String} {i : Nat} :
    l.indexOf? a = some i ↔
      ∃ h : i < l.length, l[i] = a ∧ ∀ j, j < i → ∀ (hj : j < l.length), l[j] ≠ a := by
  rw [List.indexOf?, List.findIdx?_eq_some_iff_getElem]
  constructor
  · rintro ⟨h, h1, h2⟩
    refine ⟨h, by simpa using h1, fun j hj _ => by simpa using h2 j hj⟩
  · rintro ⟨h, h1, h2⟩
    refine ⟨h, by simpa using h1, fun j hj => by
      simpa using h2 j hj (Nat.lt_trans hj h)⟩

lemma indexOf?_eq_none_iff' {l : List String} {a : String} :
    l.indexOf? a = none ↔ a ∉ l := by
  rw [List.indexOf?, List.findIdx?_eq_none_iff]
  constructor
  · intro h hmem
    have := h a hmem
    simp at this
  · intro h x hx
    simp only [beq_eq_false_iff_ne, ne_eq]
    rintro rfl
    exact h hx

lemma fcfi_eq_none_iff (children : Children) (tagnames : List String) :
    first_child_found_in children tagnames = none ↔
      ∀ t ∈ tagnames, t ∉ children := by
  induction tagnames with
  | nil => simp [first_child_found_in]
  | cons t rest ih =>
    simp only [first_child_found_in]
    cases hx : children.indexOf? t with
    | some i =>
      simp only []
      constructor
      · intro h; exact absurd h (by simp)
      · intro h
        exfalso
        have := indexOf?_eq_some_iff.mp hx
        exact h t (List.mem_cons_self _ _) (this.2.1 ▸ List.getElem_mem _)
    | none =>
      simp only []
      rw [ih]
      constructor
      · intro h t' ht'
        rcases List.mem_cons.mp ht' with rfl | h'
        · exact indexOf?_eq_none_iff'.mp hx
        · exact h t' h'
      · intro h t' ht'
        exact h t' (List.mem_cons_of_mem _ ht')

lemma fcfi_skip_absent (children : Children) (t : String) (suf : List String) :
    ∀ pre : List String, (∀ t' ∈ pre, t' ∉ children) →
      first_child_found_in children (pre ++ t :: suf) =
        first_child_found_in children (t :: suf) := by
  intro pre
  induction pre with
  | nil => intro _; rfl
  | cons p pre ih =>
    intro h
    have hp : p ∉ children := h p (List.mem_cons_self _ _)
    simp only [List.cons_append, first_child_found_in,
      indexOf?_eq_none_iff'.mpr hp]
    exact ih (fun t' ht' => h t' (List.mem_cons_of_mem _ ht'))


lemma mem_drop_iff_seqIdx {seq : List String} (hnd : seq.Nodup) {t : String} {k : Nat} :
    t ∈ seq.drop (k + 1) ↔ t ∈ seq ∧ k + 1 ≤ seqIdx seq t := by
  constructor
  · intro h
    obtain ⟨j, hj, hget⟩ := List.mem_iff_getElem.mp h
    rw [List.getElem_drop] at hget
    have hlen : k + 1 + j < seq.length := by
      have := hj
      simp only [List.length_drop] at this
      omega
    constructor
    · exact hget ▸ List.getElem_mem hlen
    · have := List.indexOf_getElem hnd (k + 1 + j) hlen
      rw [hget] at this
      rw [seqIdx, this]
      omega
  · rintro ⟨hmem, hle⟩
    have hm : seqIdx seq t < seq.length := List.indexOf_lt_length.mpr hmem
    have hj : seqIdx seq t - (k + 1) < (seq.drop (k + 1)).length := by
      simp only [List.length_drop]
      omega
    apply List.mem_iff_getElem.mpr
    refine ⟨seqIdx seq t - (k + 1), hj, ?_⟩
    rw [List.getElem_drop]
    have hb1 : k + 1 + (seqIdx seq t - (k + 1)) < seq.length := by omega
    have heq : seq[k + 1 + (seqIdx seq t - (k + 1))] = seq[seqIdx seq t] := by
      congr 1 <;> omega
    rw [heq]
    exact List.getElem_indexOf hm

lemma seqIdx_le_of_not_mem_drop {seq : List String} (hnd : seq.Nodup) {t : String}
    {k : Nat} (hmem : t ∈ seq) (h : t ∉ seq.drop (k + 1)) : seqIdx seq t ≤ k := by
  by_contra hlt
  push_neg at hlt
  exact h ((mem_drop_iff_seqIdx hnd).mpr ⟨hmem, hlt⟩)

lemma mem_take_getElem {l : List String} {a : String} {n : Nat} (h : a ∈ l.take n) :
    ∃ j, ∃ hj : j < l.length, j < n ∧ l[j] = a := by
  obtain ⟨j, hj, hget⟩ := List.mem_iff_getElem.mp h
  have hj' : j < l.length ∧ j < n := by
    have := hj
    simp only [List.length_take] at this
    omega
  exact ⟨j, hj'.1, hj'.2, by rw [← hget, List.getElem_take]⟩

lemma mem_drop_getElem {l : List String} {b : String} {n : Nat} (h : b ∈ l.drop n) :
    ∃ j, ∃ hj : j < l.length, n ≤ j ∧ l[j] = b := by
  obtain ⟨j, hj, hget⟩ := List.mem_iff_getElem.mp h
  rw [List.getElem_drop] at hget
  have hlen : n + j < l.length := by
    have := hj
    simp only [List.length_drop] at this
    omega
  exact ⟨n + j, hlen, by omega, hget⟩


lemma fcfi_eq_findIdx {seq : List String} (hnd : seq.Nodup) (k : Nat)
    {children : Children} (hsort : children.Pairwise (seqLE seq)) :
    first_child_found_in children (seq.drop (k + 1)) =
      children.findIdx? (fun c => decide (c ∈ seq.drop (k + 1))) := by
  cases hfi : children.findIdx? (fun c => decide (c ∈ seq.drop (k + 1))) with
  | none =>
    rw [fcfi_eq_none_iff]
    have hall := List.findIdx?_eq_none_iff.mp hfi
    intro t ht hmem
    have := hall t hmem
    simp only [decide_eq_false_iff_not] at this
    exact this ht
  | some i =>
    obtain ⟨hi, hPi, hmin⟩ := List.findIdx?_eq_some_iff_getElem.mp hfi
    have hPi' : children[i] ∈ seq.drop (k + 1) := by simpa using hPi
    have hmin' : ∀ j, j < i → ∀ (hlen : j < children.length),
        children[j] ∉ seq.drop (k + 1) := by
      intro j hj _
      have := hmin j hj
      simpa using this
    obtain ⟨m, hm, hgm⟩ := List.mem_iff_getElem.mp hPi'
    have hnddrop : (seq.drop (k + 1)).Nodup := hnd.sublist (List.drop_sublist _ _)
    have hdec : seq.drop (k + 1) =
        (seq.drop (k + 1)).take m ++ children[i] :: (seq.drop (k + 1)).drop (m + 1) := by
      conv_lhs => rw [← List.take_append_drop m (seq.drop (k + 1))]
      rw [← hgm, ← List.getElem_cons_drop (seq.drop (k + 1)) m hm]
    have hpre : ∀ t' ∈ (seq.drop (k + 1)).take m, t' ∉ children := by
      intro t' ht' hmem
      obtain ⟨j, hj, hjm, hget⟩ := mem_take_getElem ht'
      obtain ⟨j', hj', hget'⟩ := List.mem_iff_getElem.mp hmem
      have ht'drop : t' ∈ seq.drop (k + 1) := hget ▸ List.getElem_mem hj
      rcases Nat.lt_trichotomy j' i with hlt | heq | hgt
      · exact hmin' j' hlt hj' (hget' ▸ ht'drop)
      · subst heq
        rw [hget'] at hgm
        rw [← hget] at hgm
        have := (List.Nodup.getElem_inj_iff hnddrop).mp hgm
        omega
      · have hle : seqLE seq children[i] children[j'] :=
          List.pairwise_iff_getElem.mp hsort i j' hi hj' hgt
        have hidx1 : seqIdx seq children[i] = k + 1 + m := by
          have hmm : k + 1 + m < seq.length := by
            have := hm
            simp only [List.length_drop] at this
            omega
          have : seq[k + 1 + m] = children[i] := by
            rw [← hgm, List.getElem_drop]
          rw [seqIdx, ← this, List.indexOf_getElem hnd]
        have hidx2 : seqIdx seq t' = k + 1 + j := by
          have hjj : k + 1 + j < seq.length := by
            have := hj
            simp only [List.length_drop] at this
            omega
          have : seq[k + 1 + j] = t' := by
            rw [← hget, List.getElem_drop]
          rw [seqIdx, ← this, List.indexOf_getElem hnd]
        rw [← hget'] at hidx2
        have := hle
        rw [seqLE, hidx1, hidx2] at this
        omega
    rw [hdec, fcfi_skip_absent children _ _ _ hpre]
    have hio : children.indexOf? children[i] = some i := by
      rw [indexOf?_eq_some_iff]
      refine ⟨hi, rfl, ?_⟩
      intro j hj hlen hcon
      exact hmin' j hj hlen (hcon ▸ hPi')
    simp only [first_child_found_in, hio]


/-- C1: when an element's existing children conform to its declared content
model (`_tag_seq`), the schema-framework inserter (one and the same for
every cardinality kind) places a new child right before the first existing
sibling whose tag is among the child's declared successors, appends it when
no successor tag is present, and in both cases the resulting children order
again conforms to the content model — for every conforming set of
pre-existing siblings. -/
theorem insert_element_before_spec :
    ∀ (seq : List String) (children : Children) (tag : String),
      seq.Nodup → tag ∈ seq →
      (∀ c ∈ children, c ∈ seq) → children.Pairwise (seqLE seq) →
      ((∀ i, children.findIdx?
            (fun c => decide (c ∈ seq.drop (seqIdx seq tag + 1))) = some i →
          insert_element_before children tag (seq.drop (seqIdx seq tag + 1)) =
            children.take i ++ tag :: children.drop i) ∧
        (children.findIdx?
            (fun c => decide (c ∈ seq.drop (seqIdx seq tag + 1))) = none →
          insert_element_before children tag (seq.drop (seqIdx seq tag + 1)) =
            children ++ [tag])) ∧
      (∀ c ∈ insert_element_before children tag (seq.drop (seqIdx seq tag + 1)),
        c ∈ seq) ∧
      (insert_element_before children tag
        (seq.drop (seqIdx seq tag + 1))).Pairwise (seqLE seq) := by
  intro seq children tag hnd htag hmem hsort
  set k := seqIdx seq tag with hk
  have halign := fcfi_eq_findIdx hnd k hsort
  have hplace :
      (∀ i, children.findIdx? (fun c => decide (c ∈ seq.drop (k + 1))) = some i →
        insert_element_before children tag (seq.drop (k + 1)) =
          children.take i ++ tag :: children.drop i) ∧
      (children.findIdx? (fun c => decide (c ∈ seq.drop (k + 1))) = none →
        insert_element_before children tag (seq.drop (k + 1)) = children ++ [tag]) := by
    constructor
    · intro i hfi
      rw [insert_element_before, halign, hfi]
    · intro hfi
      rw [insert_element_before, halign, hfi]
  refine ⟨hplace, ?_, ?_⟩
  · intro c hc
    cases hfi : children.findIdx? (fun c => decide (c ∈ seq.drop (k + 1))) with
    | some i =>
      rw [hplace.1 i hfi] at hc
      rcases List.mem_append.mp hc with h | h
      · exact hmem c (List.mem_of_mem_take h)
      · rcases List.mem_cons.mp h with rfl | h'
        · exact htag
        · exact hmem c (List.mem_of_mem_drop h')
    | none =>
      rw [hplace.2 hfi] at hc
      rcases List.mem_append.mp hc with h | h
      · exact hmem c h
      · rw [List.mem_singleton.mp h]
        exact htag
  · cases hfi : children.findIdx? (fun c => decide (c ∈ seq.drop (k + 1))) with
    | some i =>
      rw [hplace.1 i hfi]
      obtain ⟨hi, hPi, hmin⟩ := List.findIdx?_eq_some_iff_getElem.mp hfi
      have hPi' : children[i] ∈ seq.drop (k + 1) := by simpa using hPi
      have hmin' : ∀ j, j < i → ∀ (hlen : j < children.length),
          children[j] ∉ seq.drop (k + 1) := by
        intro j hj _
        have := hmin j hj
        simpa using this
      have htake_le : ∀ a ∈ children.take i, seqIdx seq a ≤ k := by
        intro a ha
        obtain ⟨j, hj, hji, hget⟩ := mem_take_getElem ha
        rcases Nat.lt_or_ge j i with hlt | hge
        · exact seqIdx_le_of_not_mem_drop hnd (hmem a (hget ▸ List.getElem_mem hj))
            (hget ▸ hmin' j hlt hj)
        · omega
      have hdrop_ge : ∀ b ∈ children.drop i, k + 1 ≤ seqIdx seq b := by
        intro b hb
        obtain ⟨j, hj, hij, hget⟩ := mem_drop_getElem hb
        have hle : seqLE seq children[i] children[j] := by
          rcases Nat.lt_or_ge i j with hlt | hge
          · exact List.pairwise_iff_getElem.mp hsort i j hi hj hlt
          · have : i = j := by omega
            subst this
            exact le_refl _
        have hfirst : k + 1 ≤ seqIdx seq children[i] :=
          ((mem_drop_iff_seqIdx hnd).mp hPi').2
        rw [seqLE] at hle
        rw [← hget]
        omega
      rw [List.pairwise_append]
      refine ⟨hsort.sublist (List.take_sublist _ _), ?_, ?_⟩
      · rw [List.pairwise_cons]
        refine ⟨?_, hsort.sublist (List.drop_sublist _ _)⟩
        intro b hb
        rw [seqLE, ← hk]
        have := hdrop_ge b hb
        omega
      · intro a ha b hb
        rcases List.mem_cons.mp hb with rfl | hb'
        · rw [seqLE, ← hk]
          exact htake_le a ha
        · rw [seqLE]
          have h1 := htake_le a ha
          have h2 := hdrop_ge b hb'
          omega
    | none =>
      rw [hplace.2 hfi]
      have hall := List.findIdx?_eq_none_iff.mp hfi
      have hle : ∀ a ∈ children, seqIdx seq a ≤ k := by
        intro a ha
        have := hall a ha
        simp only [decide_eq_false_iff_not] at this
        exact seqIdx_le_of_not_mem_drop hnd (hmem a ha) this
      rw [List.pairwise_append]
      refine ⟨hsort, List.pairwise_singleton _ _, ?_⟩
      intro a ha b hb
      rw [List.mem_singleton.mp hb, seqLE, ← hk]
      exact hle a ha

/-- Witness for C1 on `_tag_seq = [a, b, c]` with existing children `[a, c]`:
inserting `b` lands right before `c` (position 1), giving `[a, b, c]`. -/
theorem insert_element_before_spec_witness :
    insert_element_before ["a", "c"] "b"
        (["a", "b", "c"].drop (seqIdx ["a", "b", "c"] "b" + 1)) =
      ["a", "c"].take 1 ++ "b" :: ["a", "c"].drop 1 :=
  (insert_element_before_spec ["a", "b", "c"] ["a", "c"] "b"
    (by decide) (by decide) (by decide) (by decide)).1.1 1 (by decide)

end Docx.Xmlchemy

namespace Docx.Table

/-- Witness for C7: instantiating the merge-result property at the actual
result of the 3x3 merge. -/
theorem merge_3x3_diagonal_witness :
    tcAt (⟨[⟨0, [⟨2, some .restart, none, [Block.p 0]⟩, emptyCell]⟩,
            ⟨0, [⟨2, some .continue_, none, [Block.p 0]⟩, emptyCell]⟩,
            ⟨0, [emptyCell, emptyCell, emptyCell]⟩]⟩ : Tbl) 0 0 =
        some ⟨2, some .restart, none, [Block.p 0]⟩ ∧
      tc_at_grid_offset
        ((⟨[⟨0, [⟨2, some .restart, none, [Block.p 0]⟩, emptyCell]⟩,
            ⟨0, [⟨2, some .continue_, none, [Block.p 0]⟩, emptyCell]⟩,
            ⟨0, [emptyCell, emptyCell, emptyCell]⟩]⟩ : Tbl).trs[1]?.getD ⟨0, []⟩) 0 = .ok 0 ∧
      tcAt (⟨[⟨0, [⟨2, some .restart, none, [Block.p 0]⟩, emptyCell]⟩,
              ⟨0, [⟨2, some .continue_, none, [Block.p 0]⟩, emptyCell]⟩,
              ⟨0, [emptyCell, emptyCell, emptyCell]⟩]⟩ : Tbl) 1 0 =
        some ⟨2, some .continue_, none, [Block.p 0]⟩ :=
  merge_3x3_diagonal.2
    ((0, 0), ⟨[⟨0, [⟨2, some .restart, none, [Block.p 0]⟩, emptyCell]⟩,
               ⟨0, [⟨2, some .continue_, none, [Block.p 0]⟩, emptyCell]⟩,
               ⟨0, [emptyCell, emptyCell, emptyCell]⟩]⟩) (by decide)

end Docx.Table
